import Mathlib

/-!
Verification development for the graphic-stories repository.

The definitions below are a shallow embedding of the graph-construction
pipeline in `src/App.tsx` (identifier normalization, display formatting,
event-key sorting, `buildGraphFromScene`) and of the force-layout engine and
edge curve bundler in `src/components/InteractiveGraph.tsx`.  Strings are
Lean `String`s (lists of characters); JavaScript numbers are modelled as
rationals; JavaScript `Map`/`Set`/object iteration order is modelled with
association lists in insertion order, matching the guaranteed iteration
order of the runtime.
-/

namespace GraphicStories

/- Rational arithmetic must evaluate inside `decide` proofs about concrete
simulation states. -/
attribute [local semireducible] Rat.add Rat.sub Rat.mul Rat.inv Rat.ofScientific

/-! ## Character classes (JavaScript `\s`, line terminators, ASCII case maps) -/

/-- Code points matched by JavaScript `\s` (WhiteSpace ∪ LineTerminator). -/
def wsCodes : List Nat :=
  [9, 10, 11, 12, 13, 32, 160, 0x1680, 0x2000, 0x2001, 0x2002, 0x2003,
   0x2004, 0x2005, 0x2006, 0x2007, 0x2008, 0x2009, 0x200A, 0x2028, 0x2029,
   0x202F, 0x205F, 0x3000, 0xFEFF]

/-- JavaScript `\s` as a character predicate. -/
def isWs (c : Char) : Bool := decide (c.toNat ∈ wsCodes)

/-- JavaScript line terminators (the characters `.` does not match). -/
def isLineTerm (c : Char) : Bool :=
  c.toNat = 10 || c.toNat = 13 || c.toNat = 0x2028 || c.toNat = 0x2029

/-- ASCII lower-casing of one character (the fragment of
`String.prototype.toLowerCase` exercised by the repository's data). -/
def lowerChar (c : Char) : Char :=
  if 65 ≤ c.toNat ∧ c.toNat ≤ 90 then Char.ofNat (c.toNat + 32) else c

/-- ASCII upper-casing of one character. -/
def upperChar (c : Char) : Char :=
  if 97 ≤ c.toNat ∧ c.toNat ≤ 122 then Char.ofNat (c.toNat - 32) else c

/-! ## `replace(/\s*\(.*?\)\s*/g, '')`

JavaScript repeatedly removes the leftmost match: optional whitespace, an
opening parenthesis, a lazy run of non-line-terminator characters up to the
first closing parenthesis, trailing whitespace.  `findClose cs` returns the
suffix after the first `')'` in `cs` reachable without crossing a line
terminator. -/

def findClose : List Char → Option (List Char)
  | [] => none
  | c :: cs => if c = ')' then some cs else if isLineTerm c then none else findClose cs

theorem findClose_length_lt : ∀ {l r : List Char}, findClose l = some r → r.length < l.length := by
  intro l
  induction l with
  | nil => intro r h; simp [findClose] at h
  | cons c cs ih =>
    intro r h
    unfold findClose at h
    split at h
    · cases h
      simp [List.length_cons]
    · split at h
      · cases h
      · have := ih h
        simp only [List.length_cons]
        omega

theorem length_dropWhileWs_le (l : List Char) : (l.dropWhile isWs).length ≤ l.length := by
  induction l with
  | nil => simp
  | cons c cs ih =>
    by_cases h : isWs c
    · rw [List.dropWhile_cons, if_pos h]
      simp only [List.length_cons]
      omega
    · rw [List.dropWhile_cons, if_neg h]

/-- The global parenthetical-stripping replace.  `ws` is the run of
whitespace read but not yet emitted (it is dropped if the next character
opens a matched parenthetical, kept otherwise).  The `fuel` argument only
makes the recursion structural; every remaining input is shorter than its
fuel (see `stripAux_fuel_irrel`), so the fuel-exhausted branch is never
taken from `stripParens`. -/
def stripAux : Nat → List Char → List Char → List Char
  | _, ws, [] => ws
  | 0, ws, l => ws ++ l
  | fuel + 1, ws, c :: cs =>
    if isWs c then stripAux fuel (ws ++ [c]) cs
    else if c = '(' then
      match findClose cs with
      | some rest => stripAux fuel [] (rest.dropWhile isWs)
      | none => ws ++ c :: stripAux fuel [] cs
    else ws ++ c :: stripAux fuel [] cs

/-- `name.replace(/\s*\(.*?\)\s*/g, '')` on character lists. -/
def stripParens (s : List Char) : List Char := stripAux s.length [] s

/-- The fuel argument of `stripAux` is irrelevant as long as it dominates
the input length. -/
theorem stripAux_fuel_irrel :
    ∀ (fuel₁ fuel₂ : Nat) (ws l : List Char), l.length ≤ fuel₁ → l.length ≤ fuel₂ →
      stripAux fuel₁ ws l = stripAux fuel₂ ws l := by
  intro fuel₁
  induction fuel₁ with
  | zero =>
    intro fuel₂ ws l h₁ _
    have : l = [] := List.length_eq_zero.mp (Nat.le_zero.mp h₁)
    subst this
    cases fuel₂ <;> rfl
  | succ f ih =>
    intro fuel₂ ws l h₁ h₂
    cases l with
    | nil => cases fuel₂ <;> rfl
    | cons c cs =>
      cases fuel₂ with
      | zero => simp at h₂
      | succ f₂ =>
        simp only [List.length_cons] at h₁ h₂
        simp only [stripAux]
        by_cases hw : isWs c
        · simp only [hw, if_true]
          exact ih f₂ (ws ++ [c]) cs (by omega) (by omega)
        · simp only [hw, if_false]
          by_cases hp : c = '('
          · simp only [hp, if_true]
            cases hfc : findClose cs with
            | some rest =>
              have hlt := findClose_length_lt hfc
              have hdw := length_dropWhileWs_le rest
              exact ih f₂ [] (rest.dropWhile isWs) (by omega) (by omega)
            | none =>
              rw [ih f₂ [] cs (by omega) (by omega)]
              simp
          · simp only [hp, if_false]
            rw [ih f₂ [] cs (by omega) (by omega)]
            simp

/-! ## `trim`, whitespace collapapse, case folding on character lists -/

/-- Remove trailing JavaScript whitespace. -/
def dropTrailingWs : List Char → List Char
  | [] => []
  | c :: cs =>
    match dropTrailingWs cs with
    | [] => if isWs c then [] else [c]
    | r => c :: r

/-- JavaScript `String.prototype.trim`. -/
def jsTrim (s : List Char) : List Char := dropTrailingWs (s.dropWhile isWs)

/-- `replace(/\s+/g, ' ')`: `prevWs` records whether the previous character
was whitespace (in which case further whitespace is dropped rather than
emitted as a space). -/
def collapseAux (prevWs : Bool) : List Char → List Char
  | [] => []
  | c :: cs =>
    if isWs c then
      if prevWs then collapseAux true cs else ' ' :: collapseAux true cs
    else c :: collapseAux false cs

/-- `replace(/\s+/g, ' ')` on character lists. -/
def collapseWs (s : List Char) : List Char := collapseAux false s

/-- `normalizeName` on character lists:
`replace(/\s*\(.*?\)\s*/g, '')`, `trim()`, `replace(/\s+/g, ' ')`,
`toLowerCase()`. -/
def normalizeList (s : List Char) : List Char :=
  (collapseWs (jsTrim (stripParens s))).map lowerChar

/-- `normalizeName` from `App.tsx`:
`name.replace(/\s*\(.*?\)\s*/g, '').trim().replace(/\s+/g, ' ').toLowerCase()`. -/
def normalizeName (s : String) : String :=
  ⟨normalizeList s.data⟩

/-- `normalizeId` from `App.tsx` (an alias for `normalizeName`). -/
def normalizeId (s : String) : String := normalizeName s

/-! ## Display formatting -/

/-- JavaScript `split(' ')` on character lists (splits on the literal space
character only). -/
def splitSp : List Char → List (List Char)
  | [] => [[]]
  | c :: cs =>
    if c = ' ' then [] :: splitSp cs
    else
      match splitSp cs with
      | [] => [[c]]
      | w :: ws => (c :: w) :: ws

/-- `part.charAt(0).toUpperCase() + part.slice(1).toLowerCase()`. -/
def titleCasePart : List Char → List Char
  | [] => []
  | c :: cs => upperChar c :: cs.map lowerChar

/-- `join(' ')`. -/
def joinSp : List (List Char) → List Char
  | [] => []
  | [w] => w
  | w :: ws => w ++ ' ' :: joinSp ws

/-- `formatDisplayName` from `App.tsx`: strip parentheticals and trim; if
nothing is left return the original name, otherwise title-case each
space-separated token. -/
def formatDisplayName (s : String) : String :=
  let cleaned := jsTrim (stripParens s.data)
  if cleaned = [] then s
  else ⟨joinSp (((splitSp cleaned).filter (· ≠ [])).map titleCasePart)⟩

/-! ## Event-key sorting -/

/-- `Number(key.replace(/\D+/g, ''))`: the number formed by the digits of
the key, `0` when the key has no digits. -/
def numberFromKey (k : String) : Nat :=
  (k.data.filter (fun c => decide ('0' ≤ c ∧ c ≤ '9'))).foldl
    (fun acc c => acc * 10 + (c.toNat - 48)) 0

/-- Stable insertion of a key into an already-sorted key list: the new key
goes after every key with a smaller-or-equal embedded number (JavaScript's
`Array.prototype.sort` is stable). -/
def insertByKey (x : String) : List String → List String
  | [] => [x]
  | y :: ys =>
    if numberFromKey y ≤ numberFromKey x then y :: insertByKey x ys
    else x :: y :: ys

/-- `sortEventKeys` from `App.tsx`: sort keys by ascending embedded number,
stably. -/
def sortEventKeys (keys : List String) : List String :=
  keys.foldl (fun acc k => insertByKey k acc) []

/-! ## Scene data model (`App.tsx` types) -/

/-- A JSON field value inside a raw character stat record. -/
inductive JsVal where
  | num (q : ℚ)
  | str (s : String)
deriving DecidableEq, Repr

/-- `RawCharacterStat`: an open record of named fields (the code reads
fields by the pole labels and `justification`). -/
def RawCharacterStat := List (String × JsVal)

instance : DecidableEq RawCharacterStat := by
  unfold RawCharacterStat
  infer_instance

/-- First-match field lookup on a raw stat record (JavaScript property
access on a parsed JSON object; keys are unique in parsed JSON). -/
def statGet (e : RawCharacterStat) (k : String) : Option JsVal :=
  match e with
  | [] => none
  | (a, v) :: t => if a = k then some v else statGet t k

/-- `RawCharacterProfile`: the three optional named stat records. -/
structure RawCharacterProfile where
  foolHero : Option RawCharacterStat
  angelDemon : Option RawCharacterStat
  tradAdv : Option RawCharacterStat
deriving DecidableEq

/-- `StatPair` from `App.tsx`. -/
structure StatPair where
  leftLabel : String
  rightLabel : String
  left : ℚ
  right : ℚ
  justification : String
deriving DecidableEq, Repr

/-- `CharacterSceneStats` from `App.tsx`. -/
structure CharacterSceneStats where
  foolHero : Option StatPair
  angelDemon : Option StatPair
  tradAdv : Option StatPair
deriving DecidableEq, Repr

/-- `buildStatPair` from `App.tsx`: absent entry gives `undefined`; numeric
pole fields default to 0, `justification` defaults to the empty string. -/
def buildStatPair (entry : Option RawCharacterStat) (leftLabel rightLabel : String) :
    Option StatPair :=
  match entry with
  | none => none
  | some e =>
    let left := match statGet e leftLabel with | some (.num q) => q | _ => 0
    let right := match statGet e rightLabel with | some (.num q) => q | _ => 0
    let justification := match statGet e "justification" with | some (.str s) => s | _ => ""
    some ⟨leftLabel, rightLabel, left, right, justification⟩

/-- `normalizeCharacterStats` from `App.tsx`. -/
def normalizeCharacterStats (profile : Option RawCharacterProfile) :
    Option CharacterSceneStats :=
  match profile with
  | none => none
  | some p =>
    let stats : CharacterSceneStats :=
      ⟨buildStatPair p.foolHero "Fool" "Hero",
       buildStatPair p.angelDemon "Angel" "Demon",
       buildStatPair p.tradAdv "Traditionalist" "Adventurer"⟩
    if stats.foolHero = none ∧ stats.angelDemon = none ∧ stats.tradAdv = none then none
    else some stats

/-- `SceneEvent` from `App.tsx`. -/
structure SceneEvent where
  title : String
  description : String
  initiators : List String
  receivers : List String
deriving DecidableEq

/-- `Scene` from `App.tsx`: `characters` and `actions` are JSON objects,
modelled as association lists in insertion order with unique keys. -/
structure Scene where
  characters : List (String × RawCharacterProfile)
  actions : List (String × SceneEvent)
deriving DecidableEq

/-- Graph node (`GraphNode` in `InteractiveGraph.tsx`). -/
structure GNode where
  id : String
  label : String
  group : Option String
  stats : Option CharacterSceneStats
deriving DecidableEq, Repr

/-- Graph edge (`GraphEdge` in `InteractiveGraph.tsx`). -/
structure GEdge where
  source : String
  target : String
  relationship : Option String
deriving DecidableEq, Repr

/-- `StoryGraph`. -/
structure StoryGraph where
  nodes : List GNode
  edges : List GEdge
deriving DecidableEq, Repr

/-! ## `buildGraphFromScene`

The function keeps two synchronized maps (`characterMap`,
`normalizedCharacterKeys`) populated with a first-wins guard; an entry of
`rosterEntries` bundles one normalized key with its canonical raw spelling
and derived display data. -/

/-- One deduplicated roster character. -/
structure RosterEntry where
  normId : String
  rawId : String
  label : String
  stats : Option CharacterSceneStats
deriving DecidableEq

/-- The `characterMap` / `normalizedCharacterKeys` construction loop: first
raw spelling per normalized id wins, in roster-encounter order. -/
def rosterEntries (chars : List (String × RawCharacterProfile)) : List RosterEntry :=
  chars.foldl
    (fun acc p =>
      if acc.any (fun e => e.normId = normalizeId p.1) then acc
      else acc ++ [⟨normalizeId p.1, p.1, formatDisplayName p.1,
                    normalizeCharacterStats (some p.2)⟩])
    []

/-- `normalizedCharacterKeys.get` (normalized id to canonical raw id). -/
def rosterLookup (roster : List RosterEntry) (nid : String) : Option String :=
  (roster.find? (fun e => e.normId = nid)).map (fun e => e.rawId)

/-- `characterIds` (`Array.from(normalizedCharacterKeys.values())`). -/
def characterIds (roster : List RosterEntry) : List String :=
  roster.map (fun e => e.rawId)

/-- The wildcard test `id.trim().toUpperCase() === 'ALL'`. -/
def isWildcard (t : String) : Bool :=
  ((jsTrim t.data).map upperChar) = "ALL".data

/-- `groupNodes.set(id, label)`: JavaScript `Map.set` keeps the original
insertion position of an existing key and overwrites its value. -/
def mapSet (m : List (String × String)) (k v : String) : List (String × String) :=
  if m.any (fun p => p.1 = k) then
    m.map (fun p => if p.1 = k then (k, v) else p)
  else m ++ [(k, v)]

/-- One iteration of the `participants.forEach` body of
`expandParticipants`: the accumulator carries the expanded id list and the
`groupNodes` map. -/
def expandStep (roster : List RosterEntry) (acc : List String × List (String × String))
    (t : String) : List String × List (String × String) :=
  if isWildcard t then (acc.1 ++ characterIds roster, acc.2)
  else
    match rosterLookup roster (normalizeId t) with
    | some raw => (acc.1 ++ [raw], acc.2)
    | none =>
        (acc.1 ++ [normalizeId t],
         mapSet acc.2 (normalizeId t) (formatDisplayName t))

/-- `expandParticipants` from `App.tsx` (state-passing for the mutation of
`groupNodes`). -/
def expandParticipants (roster : List RosterEntry)
    (gm : List (String × String)) (ps : List String) :
    List String × List (String × String) :=
  ps.foldl (expandStep roster) ([], gm)

/-- `scene.actions[eventKey]` lookup. -/
def actionsLookup (actions : List (String × SceneEvent)) (k : String) : Option SceneEvent :=
  (actions.find? (fun p => p.1 = k)).map (fun p => p.2)

/-- One iteration of the edge-emitting `flatMap` body: expand initiators and
receivers (threading `groupNodes`), emit the initiator × receiver cross
product. -/
def eventStep (roster : List RosterEntry) (actions : List (String × SceneEvent))
    (acc : List GEdge × List (String × String)) (key : String) :
    List GEdge × List (String × String) :=
  match actionsLookup actions key with
  | none => acc
  | some event =>
    let ri := expandParticipants roster acc.2 event.initiators
    let rr := expandParticipants roster ri.2 event.receivers
    (acc.1 ++ ri.1.flatMap (fun s => rr.1.map (fun t => ⟨s, t, some event.title⟩)), rr.2)

/-- The edge construction over the sorted event keys, returning the edge
list and the final `groupNodes` map. -/
def buildEdges (roster : List RosterEntry) (actions : List (String × SceneEvent)) :
    List GEdge × List (String × String) :=
  (sortEventKeys (actions.map (fun p => p.1))).foldl (eventStep roster actions) ([], [])

/-- `usedNodeIds.has`. -/
def usedNode (edges : List GEdge) (id : String) : Bool :=
  edges.any (fun e => e.source = id || e.target = id)

/-- The `characterNodes` array: roster entries whose canonical raw id is
truthy and used by some edge, in roster-encounter order. -/
def characterNodesOf (chars : List (String × RawCharacterProfile))
    (actions : List (String × SceneEvent)) : List GNode :=
  ((rosterEntries chars).filter
      (fun e => !(e.rawId = "") && usedNode (buildEdges (rosterEntries chars) actions).1 e.rawId)).map
    (fun e => ⟨e.rawId, e.label, none, e.stats⟩)

/-- The `groupNodesArray`: registered group nodes used by some edge, in
first-insertion order. -/
def groupNodesOf (chars : List (String × RawCharacterProfile))
    (actions : List (String × SceneEvent)) : List GNode :=
  ((buildEdges (rosterEntries chars) actions).2.filter
      (fun p => usedNode (buildEdges (rosterEntries chars) actions).1 p.1)).map
    (fun p => ⟨p.1, p.2, some "group", none⟩)

/-- The body of `buildGraphFromScene` for a present scene. -/
def buildGraphCore (chars : List (String × RawCharacterProfile))
    (actions : List (String × SceneEvent)) : StoryGraph :=
  ⟨characterNodesOf chars actions ++ groupNodesOf chars actions,
   (buildEdges (rosterEntries chars) actions).1⟩

/-- `buildGraphFromScene` on a well-typed optional scene. -/
def buildGraphFromScene (scene : Option Scene) : Option StoryGraph :=
  match scene with
  | none => none
  | some s => some (buildGraphCore s.characters s.actions)

/-! ## Runtime behaviour on malformed scene values

At runtime the argument is arbitrary parsed JSON: the `!scene` guard only
covers an absent scene.  A present scene object lacking `characters` makes
`Object.entries(scene.characters)` throw a `TypeError`; one lacking
`actions` makes `Object.keys(scene.actions)` throw. -/

/-- A scene value as it may actually arrive at runtime: either field may be
absent. -/
structure SceneJS where
  characters : Option (List (String × RawCharacterProfile))
  actions : Option (List (String × SceneEvent))
deriving DecidableEq

/-- `buildGraphFromScene` including the exception behaviour on malformed
input: `Except.error` models an uncaught `TypeError`. -/
def buildGraphRuntime (scene : Option SceneJS) : Except String (Option StoryGraph) :=
  match scene with
  | none => .ok none
  | some s =>
    match s.characters with
    | none => .error "TypeError: Object.entries called on undefined"
    | some chars =>
      match s.actions with
      | none => .error "TypeError: Object.keys called on undefined"
      | some actions => .ok (some (buildGraphCore chars actions))

/-! ## Force layout engine (`InteractiveGraph.tsx`)

Node kinematic state lives in a list mutated in place by the tick; the
embedding passes the list through each phase.  JavaScript floating-point
values are modelled as rationals and `Math.sqrt` is an explicit function
parameter `sq`, so every theorem below holds for the actual square root
(the properties proved do not depend on its values). -/

def GRAPH_WIDTH : ℚ := 760
def GRAPH_HEIGHT : ℚ := 480
def NODE_RADIUS : ℚ := 18
def REPULSION_STRENGTH : ℚ := 1800
def SPRING_STRENGTH : ℚ := 1 / 50
def SPRING_DISTANCE : ℚ := 140
def CENTERING_STRENGTH : ℚ := 1 / 400
def VELOCITY_DECAY : ℚ := 23 / 25
def CURVE_SPACING : ℚ := 22

/-- `Math.max` on rationals (kernel-reducible). -/
def ratMax (a b : ℚ) : ℚ := if a ≤ b then b else a

/-- `Math.min` on rationals (kernel-reducible). -/
def ratMin (a b : ℚ) : ℚ := if a ≤ b then a else b

/-- `PositionedNode`. -/
structure PNode where
  id : String
  x : ℚ
  y : ℚ
  vx : ℚ
  vy : ℚ
  isFixed : Bool
deriving DecidableEq, Repr

/-- `applyForce`: fixed nodes are excluded from force accumulation. -/
def applyForceN (n : PNode) (fx fy : ℚ) : PNode :=
  if n.isFixed then n else { n with vx := n.vx + fx, vy := n.vy + fy }

/-- In-place update of the node at index `i`. -/
def modifyIdx (l : List PNode) (i : Nat) (f : PNode → PNode) : List PNode :=
  match l[i]? with
  | some a => l.set i (f a)
  | none => l

/-- The index pairs `(i, j)`, `i < j`, in the order of the nested repulsion
loops. -/
def pairIdx (n : Nat) : List (Nat × Nat) :=
  (List.range n).flatMap
    (fun i => ((List.range n).filter (fun j => i < j)).map (fun j => (i, j)))

/-- One iteration of the repulsion double loop: inverse-square repulsion
between the nodes at `p.1` and `p.2`, applied with opposite signs. -/
def repulsionStep (sq : ℚ → ℚ) (l : List PNode) (p : Nat × Nat) : List PNode :=
  match l[p.1]?, l[p.2]? with
  | some a, some b =>
    let dx := b.x - a.x
    let dy := b.y - a.y
    let distSq := dx * dx + dy * dy + 1 / 100
    let distance := sq distSq
    let force := REPULSION_STRENGTH / distSq
    let fx := dx / distance * force
    let fy := dy / distance * force
    modifyIdx (modifyIdx l p.1 (fun n => applyForceN n (-fx) (-fy))) p.2
      (fun n => applyForceN n fx fy)
  | _, _ => l

/-- The repulsion phase. -/
def repulsionPhase (sq : ℚ → ℚ) (l : List PNode) : List PNode :=
  (pairIdx l.length).foldl (repulsionStep sq) l

/-- One spring iteration for a resolved link (indices into the node list). -/
def springStep (sq : ℚ → ℚ) (l : List PNode) (lk : Nat × Nat) : List PNode :=
  match l[lk.1]?, l[lk.2]? with
  | some source, some target =>
    let dx := target.x - source.x
    let dy := target.y - source.y
    let distance := ratMax (sq (dx * dx + dy * dy)) (1 / 100)
    let delta := distance - SPRING_DISTANCE
    let force := SPRING_STRENGTH * delta
    let fx := dx / distance * force
    let fy := dy / distance * force
    modifyIdx (modifyIdx l lk.1 (fun n => applyForceN n fx fy)) lk.2
      (fun n => applyForceN n (-fx) (-fy))
  | _, _ => l

/-- The spring phase over the resolved links. -/
def springPhase (sq : ℚ → ℚ) (links : List (Nat × Nat)) (l : List PNode) : List PNode :=
  links.foldl (springStep sq) l

/-- The centering phase: every node is pulled toward the viewport center. -/
def centeringPhase (l : List PNode) : List PNode :=
  l.map (fun n =>
    applyForceN n ((GRAPH_WIDTH / 2 - n.x) * CENTERING_STRENGTH)
      ((GRAPH_HEIGHT / 2 - n.y) * CENTERING_STRENGTH))

/-- Integration of one node: fixed nodes are skipped entirely; otherwise
velocity decays, position advances and is clamped to
`[NODE_RADIUS, dimension − NODE_RADIUS]`. -/
def integrateNode (n : PNode) : PNode :=
  if n.isFixed then n
  else
    let vx := n.vx * VELOCITY_DECAY
    let vy := n.vy * VELOCITY_DECAY
    { n with
      vx := vx, vy := vy,
      x := ratMax NODE_RADIUS (ratMin (GRAPH_WIDTH - NODE_RADIUS) (n.x + vx)),
      y := ratMax NODE_RADIUS (ratMin (GRAPH_HEIGHT - NODE_RADIUS) (n.y + vy)) }

/-- The integration phase. -/
def integratePhase (l : List PNode) : List PNode := l.map integrateNode

/-- One full simulation tick: repulsion, springs, centering, integration. -/
def tick (sq : ℚ → ℚ) (links : List (Nat × Nat)) (l : List PNode) : List PNode :=
  integratePhase (centeringPhase (springPhase sq links (repulsionPhase sq l)))

/-- `updateDraggedNode`'s write to the simulation state: find the dragged
node by id, set its position from the pointer, zero its velocity and pin
it.  The written position is not clamped. -/
def updateDraggedNode (l : List PNode) (nodeId : String) (x y : ℚ) : List PNode :=
  match l.findIdx? (fun n => n.id = nodeId) with
  | some i => modifyIdx l i (fun n => { n with x := x, y := y, vx := 0, vy := 0, isFixed := true })
  | none => l

/-! ## Edge curve bundler (`decoratedEdges` in `InteractiveGraph.tsx`) -/

/-- `DecoratedEdge`. -/
structure DecEdge where
  source : String
  target : String
  relationship : Option String
  curveIndex : ℚ
  groupSize : Nat
  renderKey : String
deriving DecidableEq, Repr

/-- JavaScript's default string comparison (lexicographic by code unit),
used by `Array.prototype.sort` without a comparator. -/
def strLtList : List Char → List Char → Bool
  | [], [] => false
  | [], _ :: _ => true
  | _ :: _, [] => false
  | a :: as, b :: bs =>
    if a.toNat < b.toNat then true
    else if b.toNat < a.toNat then false
    else strLtList as bs

/-- JavaScript `a < b` on strings. -/
def jsStrLt (s t : String) : Bool := strLtList s.data t.data

/-- `[edge.source, edge.target].sort().join('|')`. -/
def sortedPairKey (e : GEdge) : String :=
  if jsStrLt e.target e.source then e.target ++ "|" ++ e.source
  else e.source ++ "|" ++ e.target

/-- The `grouped` map accumulation: groups in first-encounter key order,
each group in edge order. -/
def groupByKey (edges : List GEdge) : List (String × List GEdge) :=
  edges.foldl
    (fun acc e =>
      let k := sortedPairKey e
      if acc.any (fun p => p.1 = k) then
        acc.map (fun p => if p.1 = k then (p.1, p.2 ++ [e]) else p)
      else acc ++ [(k, [e])])
    []

/-- `count === 1 ? [0] : edges.map((_, index) => index - (count - 1) / 2)`. -/
def groupOffsets (count : Nat) : List ℚ :=
  if count = 1 then [0]
  else (List.range count).map (fun (i : Nat) => (i : ℚ) - ((count : ℚ) - 1) / 2)

/-- Decoration of one group. -/
def decorateGroup (g : String × List GEdge) : List DecEdge :=
  g.2.mapIdx (fun i e =>
    ⟨e.source, e.target, e.relationship, (groupOffsets g.2.length).getD i 0,
     g.2.length, g.1 ++ "-" ++ toString i⟩)

/-- `decoratedEdges`. -/
def decoratedEdges (edges : List GEdge) : List DecEdge :=
  (groupByKey edges).flatMap decorateGroup

/-! ## Derived views of the builder

The stateful `expandParticipants` fold splits into an id-expansion part
(independent of the group map) and a group-map part (independent of the
expansion output); these projections drive the proofs below. -/

/-- The ids one participant token expands to. -/
def expandOne (roster : List RosterEntry) (t : String) : List String :=
  if isWildcard t then characterIds roster
  else
    match rosterLookup roster (normalizeId t) with
    | some raw => [raw]
    | none => [normalizeId t]

/-- The effect of one participant token on the `groupNodes` map. -/
def gmStep (roster : List RosterEntry) (gm : List (String × String)) (t : String) :
    List (String × String) :=
  if isWildcard t then gm
  else
    match rosterLookup roster (normalizeId t) with
    | some _ => gm
    | none => mapSet gm (normalizeId t) (formatDisplayName t)

/-- A token registers a group node iff it is neither the wildcard nor a
roster character. -/
def isGroupToken (roster : List RosterEntry) (t : String) : Bool :=
  !isWildcard t && (rosterLookup roster (normalizeId t)).isNone

/-- The directed edges one event contributes. -/
def eventLinks (roster : List RosterEntry) (ev : SceneEvent) : List GEdge :=
  (ev.initiators.flatMap (expandOne roster)).flatMap
    (fun s => (ev.receivers.flatMap (expandOne roster)).map
      (fun t => ⟨s, t, some ev.title⟩))

/-- The edges contributed by one event key. -/
def linksForKey (roster : List RosterEntry) (actions : List (String × SceneEvent))
    (key : String) : List GEdge :=
  match actionsLookup actions key with
  | none => []
  | some ev => eventLinks roster ev

/-- All participant tokens of a scene, in processing order. -/
def tokenStream (actions : List (String × SceneEvent)) : List String :=
  (sortEventKeys (actions.map (fun p => p.1))).flatMap
    (fun k =>
      match actionsLookup actions k with
      | none => []
      | some ev => ev.initiators ++ ev.receivers)

/-- The group-registering tokens of a scene, in processing order. -/
def groupStream (roster : List RosterEntry) (actions : List (String × SceneEvent)) :
    List String :=
  (tokenStream actions).filter (isGroupToken roster)

/-- First-match lookup in the `groupNodes` association list. -/
def gmLookup : List (String × String) → String → Option String
  | [], _ => none
  | p :: t, k => if p.1 = k then some p.2 else gmLookup t k

theorem expandStep_eq (roster : List RosterEntry)
    (acc : List String × List (String × String)) (t : String) :
    expandStep roster acc t = (acc.1 ++ expandOne roster t, gmStep roster acc.2 t) := by
  unfold expandStep expandOne gmStep
  by_cases hw : isWildcard t
  · simp [hw]
  · simp only [hw, if_false]
    cases rosterLookup roster (normalizeId t) <;> simp

theorem expand_foldl (roster : List RosterEntry) :
    ∀ (ps : List String) (pre : List String) (gm : List (String × String)),
      ps.foldl (expandStep roster) (pre, gm)
        = (pre ++ ps.flatMap (expandOne roster), ps.foldl (gmStep roster) gm) := by
  intro ps
  induction ps with
  | nil => intro pre gm; simp
  | cons t ts ih =>
    intro pre gm
    simp only [List.foldl_cons, expandStep_eq]
    rw [ih]
    simp [List.flatMap_cons, List.append_assoc]

theorem expandParticipants_eq (roster : List RosterEntry)
    (gm : List (String × String)) (ps : List String) :
    expandParticipants roster gm ps
      = (ps.flatMap (expandOne roster), ps.foldl (gmStep roster) gm) := by
  unfold expandParticipants
  rw [expand_foldl]
  simp

theorem eventStep_eq (roster : List RosterEntry) (actions : List (String × SceneEvent))
    (acc : List GEdge × List (String × String)) (key : String) :
    eventStep roster actions acc key
      = (acc.1 ++ linksForKey roster actions key,
         (match actionsLookup actions key with
          | none => acc.2
          | some ev => (ev.initiators ++ ev.receivers).foldl (gmStep roster) acc.2)) := by
  unfold eventStep linksForKey
  cases actionsLookup actions key with
  | none => simp
  | some ev =>
    simp only [expandParticipants_eq, eventLinks, List.foldl_append]

theorem buildEdges_foldl (roster : List RosterEntry) (actions : List (String × SceneEvent)) :
    ∀ (keys : List String) (pre : List GEdge) (gm : List (String × String)),
      keys.foldl (eventStep roster actions) (pre, gm)
        = (pre ++ keys.flatMap (linksForKey roster actions),
           (keys.flatMap
              (fun k =>
                match actionsLookup actions k with
                | none => []
                | some ev => ev.initiators ++ ev.receivers)).foldl (gmStep roster) gm) := by
  intro keys
  induction keys with
  | nil => intro pre gm; simp
  | cons k ks ih =>
    intro pre gm
    simp only [List.foldl_cons, eventStep_eq]
    rw [ih]
    cases h : actionsLookup actions k with
    | none => simp [h, List.flatMap_cons, List.append_assoc]
    | some ev => simp [h, List.flatMap_cons, List.append_assoc, List.foldl_append]

theorem buildEdges_fst (roster : List RosterEntry) (actions : List (String × SceneEvent)) :
    (buildEdges roster actions).1
      = (sortEventKeys (actions.map (fun p => p.1))).flatMap (linksForKey roster actions) := by
  unfold buildEdges
  rw [buildEdges_foldl]
  simp

theorem buildEdges_snd (roster : List RosterEntry) (actions : List (String × SceneEvent)) :
    (buildEdges roster actions).2 = (tokenStream actions).foldl (gmStep roster) [] := by
  unfold buildEdges tokenStream
  rw [buildEdges_foldl]

/-! ## `Map.set` semantics of the `groupNodes` map -/

theorem gmLookup_map_ne (g : List (String × String)) (k v k₂ : String) (h : k₂ ≠ k) :
    gmLookup (g.map (fun p => if p.1 = k then (k, v) else p)) k₂ = gmLookup g k₂ := by
  induction g with
  | nil => rfl
  | cons p t ih =>
    simp only [List.map_cons]
    by_cases hp : p.1 = k
    · rw [if_pos hp]
      show (if (k, v).1 = k₂ then some (k, v).2 else _) = _
      have h1 : ¬ ((k, v).1 = k₂) := fun hh => h hh.symm
      have h2 : ¬ (p.1 = k₂) := by rw [hp]; exact h1
      rw [if_neg h1]
      show _ = (if p.1 = k₂ then some p.2 else gmLookup t k₂)
      rw [if_neg h2]
      exact ih
    · rw [if_neg hp]
      show (if p.1 = k₂ then some p.2 else _) = (if p.1 = k₂ then some p.2 else gmLookup t k₂)
      by_cases hpk : p.1 = k₂
      · rw [if_pos hpk, if_pos hpk]
      · rw [if_neg hpk, if_neg hpk]
        exact ih

theorem gmLookup_map_eq (g : List (String × String)) (k v : String)
    (h : g.any (fun p => p.1 = k)) :
    gmLookup (g.map (fun p => if p.1 = k then (k, v) else p)) k = some v := by
  induction g with
  | nil => simp at h
  | cons p t ih =>
    simp only [List.map_cons]
    by_cases hp : p.1 = k
    · rw [if_pos hp]
      show (if (k, v).1 = k then some (k, v).2 else _) = some v
      rw [if_pos rfl]
    · rw [if_neg hp]
      show (if p.1 = k then some p.2 else _) = some v
      rw [if_neg hp]
      apply ih
      simp only [List.any_cons, Bool.or_eq_true, decide_eq_true_eq] at h
      rcases h with h | h
      · exact absurd h hp
      · exact h

theorem gmLookup_not_any (g : List (String × String)) (k : String)
    (h : ¬ g.any (fun p => p.1 = k)) : gmLookup g k = none := by
  induction g with
  | nil => rfl
  | cons p t ih =>
    simp only [List.any_cons, Bool.or_eq_true, decide_eq_true_eq, not_or] at h
    show (if p.1 = k then some p.2 else gmLookup t k) = none
    rw [if_neg h.1]
    exact ih (by simpa using h.2)

theorem gmLookup_append (a b : List (String × String)) (k : String) :
    gmLookup (a ++ b) k =
      match gmLookup a k with
      | some v => some v
      | none => gmLookup b k := by
  induction a with
  | nil => simp [gmLookup]
  | cons p t ih =>
    show gmLookup (p :: (t ++ b)) k = _
    by_cases hp : p.1 = k <;> simp only [gmLookup, hp, if_true, if_false, ih]

/-- `Map.set`: lookup after set. -/
theorem mapSet_gmLookup (g : List (String × String)) (k v k₂ : String) :
    gmLookup (mapSet g k v) k₂ = if k₂ = k then some v else gmLookup g k₂ := by
  unfold mapSet
  by_cases hany : g.any (fun p => p.1 = k)
  · rw [if_pos hany]
    by_cases hk : k₂ = k
    · subst hk; rw [if_pos rfl]; exact gmLookup_map_eq g k₂ v hany
    · rw [if_neg hk]; exact gmLookup_map_ne g k v k₂ hk
  · rw [if_neg hany, gmLookup_append]
    by_cases hk : k₂ = k
    · subst hk
      rw [gmLookup_not_any g k₂ hany]
      simp [gmLookup]
    · rw [if_neg hk]
      cases hl : gmLookup g k₂ with
      | none =>
        simp only [hl]
        show gmLookup [(k, v)] k₂ = none
        show (if k = k₂ then some v else gmLookup [] k₂) = none
        rw [if_neg (fun hh => hk hh.symm)]
        rfl
      | some w => simp [hl]

theorem map_overwrite_keys (t : List (String × String)) (k v : String) :
    (t.map (fun p => if p.1 = k then (k, v) else p)).map Prod.fst = t.map Prod.fst := by
  induction t with
  | nil => rfl
  | cons q s ih =>
    simp only [List.map_cons]
    by_cases hq : q.1 = k
    · rw [if_pos hq]
      simp only [List.map_cons, List.cons.injEq]
      exact ⟨hq.symm, by simpa using ih⟩
    · rw [if_neg hq]
      simp only [List.map_cons, List.cons.injEq, true_and]
      simpa using ih

/-- `Map.set` keeps the key sequence when the key exists and appends it
otherwise. -/
theorem mapSet_keys (g : List (String × String)) (k v : String) :
    (mapSet g k v).map Prod.fst =
      if g.any (fun p => p.1 = k) then g.map Prod.fst
      else g.map Prod.fst ++ [k] := by
  unfold mapSet
  by_cases hany : g.any (fun p => p.1 = k)
  · rw [if_pos hany, if_pos hany]
    exact map_overwrite_keys g k v
  · rw [if_neg hany, if_neg hany]
    simp

/-- Lookup after folding `Map.set` over a token list: the last write for a
key wins; keys never written fall through. -/
theorem foldl_mapSet_gmLookup (key val : String → String) :
    ∀ (xs : List String) (g : List (String × String)) (k : String),
      gmLookup (xs.foldl (fun g t => mapSet g (key t) (val t)) g) k =
        match (xs.filter (fun t => key t = k)).getLast? with
        | some t => some (val t)
        | none => gmLookup g k := by
  intro xs
  induction xs using List.reverseRecOn with
  | nil => intro g k; simp
  | append_singleton ys u ih =>
    intro g k
    rw [List.foldl_append]
    simp only [List.foldl_cons, List.foldl_nil, List.filter_append]
    rw [mapSet_gmLookup]
    by_cases hu : key u = k
    · have hfu : List.filter (fun t => key t = k) [u] = [u] := by
        simp [List.filter, hu]
      rw [hfu, List.getLast?_concat, if_pos hu.symm]
    · have hfu : List.filter (fun t => key t = k) [u] = [] := by
        simp [List.filter, hu]
      rw [hfu, List.append_nil, if_neg (fun hh => hu hh.symm)]
      exact ih g k

/-- Folding `Map.set` preserves distinctness of the keys. -/
theorem foldl_mapSet_keys_nodup (key val : String → String) :
    ∀ (xs : List String) (g : List (String × String)),
      (g.map Prod.fst).Nodup →
      ((xs.foldl (fun g t => mapSet g (key t) (val t)) g).map Prod.fst).Nodup := by
  intro xs
  induction xs with
  | nil => intro g h; simpa using h
  | cons t ts ih =>
    intro g h
    simp only [List.foldl_cons]
    apply ih
    rw [mapSet_keys]
    by_cases hany : g.any (fun p => p.1 = key t)
    · rw [if_pos hany]; exact h
    · rw [if_neg hany, List.nodup_append]
      refine ⟨h, List.nodup_singleton _, ?_⟩
      intro a ha
      simp only [List.mem_singleton]
      intro hak
      subst hak
      apply hany
      rw [List.any_eq_true]
      simp only [List.mem_map] at ha
      obtain ⟨p, hp, hpa⟩ := ha
      exact ⟨p, hp, by simp [hpa]⟩

/-- The `gmStep` fold is the `Map.set` fold over the group tokens only. -/
theorem foldl_gmStep_eq (roster : List RosterEntry) :
    ∀ (ps : List String) (g : List (String × String)),
      ps.foldl (gmStep roster) g =
        (ps.filter (isGroupToken roster)).foldl
          (fun g t => mapSet g (normalizeId t) (formatDisplayName t)) g := by
  intro ps
  induction ps with
  | nil => intro g; rfl
  | cons t ts ih =>
    intro g
    simp only [List.foldl_cons, List.filter_cons]
    by_cases hw : isWildcard t
    · have : isGroupToken roster t = false := by simp [isGroupToken, hw]
      rw [this]
      simp only [Bool.false_eq_true, if_false]
      rw [← ih]
      congr 1
      simp [gmStep, hw]
    · cases hl : rosterLookup roster (normalizeId t) with
      | some raw =>
        have : isGroupToken roster t = false := by simp [isGroupToken, hw, hl]
        rw [this]
        simp only [Bool.false_eq_true, if_false]
        rw [← ih]
        congr 1
        simp [gmStep, hw, hl]
      | none =>
        have : isGroupToken roster t = true := by simp [isGroupToken, hw, hl]
        rw [this]
        rw [if_pos rfl]
        simp only [List.foldl_cons]
        rw [← ih]
        congr 1
        simp [gmStep, hw, hl]

/-- The final `groupNodes` map: lookup is the display-formatted label of the
last group token with that normalized id. -/
theorem final_gm_lookup (roster : List RosterEntry) (actions : List (String × SceneEvent))
    (k : String) :
    gmLookup (buildEdges roster actions).2 k =
      ((groupStream roster actions).filter
          (fun t => normalizeId t = k)).getLast?.map formatDisplayName := by
  rw [buildEdges_snd, foldl_gmStep_eq]
  rw [foldl_mapSet_gmLookup normalizeId formatDisplayName]
  unfold groupStream
  cases h : ((tokenStream actions).filter (isGroupToken roster)).filter
      (fun t => normalizeId t = k) |>.getLast? <;> simp [h, gmLookup]

/-- Every key of a `Map.set` fold comes from the initial map or from some
written token. -/
theorem foldl_mapSet_keys_sub (key val : String → String) :
    ∀ (xs : List String) (g : List (String × String)) (k : String),
      k ∈ (xs.foldl (fun g t => mapSet g (key t) (val t)) g).map Prod.fst →
      k ∈ g.map Prod.fst ∨ ∃ t ∈ xs, key t = k := by
  intro xs
  induction xs with
  | nil => intro g k h; exact Or.inl (by simpa using h)
  | cons t ts ih =>
    intro g k h
    simp only [List.foldl_cons] at h
    rcases ih (mapSet g (key t) (val t)) k h with h₂ | h₂
    · rw [mapSet_keys] at h₂
      by_cases hany : g.any (fun p => p.1 = key t)
      · rw [if_pos hany] at h₂
        exact Or.inl h₂
      · rw [if_neg hany] at h₂
        rcases List.mem_append.mp h₂ with h₃ | h₃
        · exact Or.inl h₃
        · refine Or.inr ⟨t, List.mem_cons_self t ts, ?_⟩
          have := List.mem_singleton.mp h₃
          exact this.symm
    · obtain ⟨u, hu, hku⟩ := h₂
      exact Or.inr ⟨u, List.mem_cons_of_mem t hu, hku⟩

/-- Every key of the final `groupNodes` map is the normalized id of some
group token of the scene. -/
theorem gm_keys_from_stream (roster : List RosterEntry) (actions : List (String × SceneEvent))
    (k : String) (h : k ∈ ((buildEdges roster actions).2).map Prod.fst) :
    ∃ t ∈ groupStream roster actions, normalizeId t = k := by
  rw [buildEdges_snd, foldl_gmStep_eq] at h
  rcases foldl_mapSet_keys_sub normalizeId formatDisplayName _ [] k h with h₂ | h₂
  · simp at h₂
  · exact h₂

/-- The final `groupNodes` map has distinct keys. -/
theorem gm_keys_nodup (roster : List RosterEntry) (actions : List (String × SceneEvent)) :
    (((buildEdges roster actions).2).map Prod.fst).Nodup := by
  rw [buildEdges_snd, foldl_gmStep_eq]
  exact foldl_mapSet_keys_nodup normalizeId formatDisplayName _ [] (by simp)

/-! ## Roster construction facts -/

theorem rosterEntries_mem (chars : List (String × RawCharacterProfile)) :
    ∀ e ∈ rosterEntries chars,
      ∃ p ∈ chars,
        e = ⟨normalizeId p.1, p.1, formatDisplayName p.1,
             normalizeCharacterStats (some p.2)⟩ := by
  unfold rosterEntries
  suffices h : ∀ (l : List (String × RawCharacterProfile)) (acc : List RosterEntry) (e : RosterEntry),
      e ∈ l.foldl
        (fun acc p =>
          if acc.any (fun e => e.normId = normalizeId p.1) then acc
          else acc ++ [⟨normalizeId p.1, p.1, formatDisplayName p.1,
                        normalizeCharacterStats (some p.2)⟩]) acc →
      e ∈ acc ∨ ∃ p ∈ l, e = ⟨normalizeId p.1, p.1, formatDisplayName p.1,
                              normalizeCharacterStats (some p.2)⟩ by
    intro e he
    rcases h chars [] e he with h₂ | h₂
    · simp at h₂
    · exact h₂
  intro l
  induction l with
  | nil => intro acc e he; exact Or.inl (by simpa using he)
  | cons p ps ih =>
    intro acc e he
    simp only [List.foldl_cons] at he
    rcases ih _ e he with h₂ | h₂
    · by_cases hany : acc.any (fun e => e.normId = normalizeId p.1)
      · rw [if_pos hany] at h₂
        exact Or.inl h₂
      · rw [if_neg hany] at h₂
        rcases List.mem_append.mp h₂ with h₃ | h₃
        · exact Or.inl h₃
        · exact Or.inr ⟨p, List.mem_cons_self p ps, by simpa using h₃⟩
    · obtain ⟨q, hq, he⟩ := h₂
      exact Or.inr ⟨q, List.mem_cons_of_mem p hq, he⟩

theorem rosterEntries_normId (chars : List (String × RawCharacterProfile)) :
    ∀ e ∈ rosterEntries chars,
      e.normId = normalizeId e.rawId ∧ e.label = formatDisplayName e.rawId := by
  intro e he
  obtain ⟨p, _, rfl⟩ := rosterEntries_mem chars e he
  exact ⟨rfl, rfl⟩

theorem rosterEntries_nodup (chars : List (String × RawCharacterProfile)) :
    ((rosterEntries chars).map (fun e => e.normId)).Nodup := by
  unfold rosterEntries
  suffices h : ∀ (l : List (String × RawCharacterProfile)) (acc : List RosterEntry),
      (acc.map (fun e => e.normId)).Nodup →
      ((l.foldl
          (fun acc p =>
            if acc.any (fun e => e.normId = normalizeId p.1) then acc
            else acc ++ [⟨normalizeId p.1, p.1, formatDisplayName p.1,
                          normalizeCharacterStats (some p.2)⟩]) acc).map
        (fun e => e.normId)).Nodup from
    h chars [] (by simp)
  intro l
  induction l with
  | nil => intro acc h; simpa using h
  | cons p ps ih =>
    intro acc h
    simp only [List.foldl_cons]
    apply ih
    by_cases hany : acc.any (fun e => e.normId = normalizeId p.1)
    · rw [if_pos hany]; exact h
    · rw [if_neg hany, List.map_append, List.nodup_append]
      refine ⟨h, List.nodup_singleton _, ?_⟩
      intro a ha
      simp only [List.map_cons, List.map_nil, List.mem_singleton]
      intro hak
      subst hak
      apply hany
      rw [List.any_eq_true]
      simp only [List.mem_map] at ha
      obtain ⟨e, he, hea⟩ := ha
      exact ⟨e, he, by simp [hea]⟩

theorem roster_fold_first :
    ∀ (l : List (String × RawCharacterProfile)) (acc : List RosterEntry) (e : RosterEntry),
      e ∈ l.foldl
          (fun acc p =>
            if acc.any (fun e => e.normId = normalizeId p.1) then acc
            else acc ++ [⟨normalizeId p.1, p.1, formatDisplayName p.1,
                          normalizeCharacterStats (some p.2)⟩]) acc →
      e ∉ acc →
      (¬ acc.any (fun a => a.normId = e.normId))
      ∧ ∃ p, l.find? (fun q => normalizeId q.1 = e.normId) = some p
          ∧ e = ⟨normalizeId p.1, p.1, formatDisplayName p.1,
                 normalizeCharacterStats (some p.2)⟩ := by
  intro l
  induction l with
  | nil =>
    intro acc e he hne
    exact absurd (by simpa using he) hne
  | cons p ps ih =>
    intro acc e he hne
    simp only [List.foldl_cons] at he
    by_cases hmem : e ∈
        (if acc.any (fun e => e.normId = normalizeId p.1) then acc
         else acc ++ [⟨normalizeId p.1, p.1, formatDisplayName p.1,
                       normalizeCharacterStats (some p.2)⟩])
    · by_cases hany : acc.any (fun e => e.normId = normalizeId p.1)
      · rw [if_pos hany] at hmem
        exact absurd hmem hne
      · rw [if_neg hany] at hmem
        rcases List.mem_append.mp hmem with h | h
        · exact absurd h hne
        · have he₂ := List.mem_singleton.mp h
          have henorm : e.normId = normalizeId p.1 := by rw [he₂]
          constructor
          · rw [henorm]
            exact hany
          · refine ⟨p, ?_, he₂⟩
            apply List.find?_cons_of_pos
            rw [decide_eq_true_eq, henorm]
    · have hres := ih _ e he hmem
      obtain ⟨hnot, p₀, hfind, heq⟩ := hres
      have hkeyp : ¬ (normalizeId p.1 = e.normId) := by
        intro hkey
        apply hnot
        by_cases hany : acc.any (fun e => e.normId = normalizeId p.1)
        · rw [if_pos hany]
          rw [List.any_eq_true] at hany ⊢
          obtain ⟨a, ha, hakey⟩ := hany
          rw [decide_eq_true_eq] at hakey
          exact ⟨a, ha, by rw [decide_eq_true_eq, hakey, hkey]⟩
        · rw [if_neg hany, List.any_append, Bool.or_eq_true]
          right
          rw [List.any_eq_true]
          refine ⟨_, List.mem_singleton.mpr rfl, ?_⟩
          rw [decide_eq_true_eq]
          exact hkey
      have hstepnot : ¬ acc.any (fun a => a.normId = e.normId) := by
        intro hacc
        apply hnot
        by_cases hany : acc.any (fun e => e.normId = normalizeId p.1)
        · rw [if_pos hany]
          exact hacc
        · rw [if_neg hany, List.any_append, Bool.or_eq_true]
          exact Or.inl hacc
      refine ⟨hstepnot, p₀, ?_, heq⟩
      rw [List.find?_cons_of_neg _ (by simpa using hkeyp)]
      exact hfind

/-- The canonical raw spelling of a roster entry is the FIRST roster item
whose spelling normalizes to the entry's key. -/
theorem rosterEntries_first (chars : List (String × RawCharacterProfile)) :
    ∀ e ∈ rosterEntries chars,
      ∃ p, chars.find? (fun q => normalizeId q.1 = e.normId) = some p
        ∧ e = ⟨normalizeId p.1, p.1, formatDisplayName p.1,
               normalizeCharacterStats (some p.2)⟩ := by
  intro e he
  exact (roster_fold_first chars [] e he (by simp)).2

/-! ## Pruning: every output node is an endpoint of some edge -/

theorem nodes_have_edge (chars : List (String × RawCharacterProfile))
    (actions : List (String × SceneEvent)) :
    ∀ n ∈ (buildGraphCore chars actions).nodes,
      ∃ e ∈ (buildGraphCore chars actions).edges, e.source = n.id ∨ e.target = n.id := by
  intro n hn
  unfold buildGraphCore at hn ⊢
  simp only at hn ⊢
  rcases List.mem_append.mp hn with h | h
  · unfold characterNodesOf at h
    rcases List.mem_map.mp h with ⟨e, he, rfl⟩
    have hf := List.of_mem_filter he
    rw [Bool.and_eq_true] at hf
    have hused := hf.2
    unfold usedNode at hused
    rw [List.any_eq_true] at hused
    obtain ⟨ed, hed, hprop⟩ := hused
    rw [Bool.or_eq_true, decide_eq_true_eq, decide_eq_true_eq] at hprop
    exact ⟨ed, hed, hprop⟩
  · unfold groupNodesOf at h
    rcases List.mem_map.mp h with ⟨p, hp, rfl⟩
    have hf := List.of_mem_filter hp
    unfold usedNode at hf
    rw [List.any_eq_true] at hf
    obtain ⟨ed, hed, hprop⟩ := hf
    rw [Bool.or_eq_true, decide_eq_true_eq, decide_eq_true_eq] at hprop
    exact ⟨ed, hed, hprop⟩

/-! ## Claim theorems -/

/-- C3 (counterexample): a present but malformed scene value — an object
with neither `characters` nor `actions` — does not yield the designed
`null` result: `buildGraphFromScene` raises a `TypeError` on it, so the
claim "for every input that is not a well-formed scene the builder returns
null without raising" is false. -/
theorem c3_counterexample :
    buildGraphRuntime (some ⟨none, none⟩)
        = Except.error "TypeError: Object.entries called on undefined"
    ∧ buildGraphRuntime (some ⟨none, none⟩) ≠ Except.ok none := by
  refine ⟨rfl, ?_⟩
  intro h
  have h₂ : (Except.error "TypeError: Object.entries called on undefined"
      : Except String (Option StoryGraph)) = Except.ok none := h
  exact Except.noConfusion h₂

/-- C3 (amended): `buildGraphFromScene` returns `null` exactly when the
scene is absent; a present scene missing `characters` or `actions` is not
guarded and raises a `TypeError` instead of returning `null`; a present
well-formed scene always yields a (possibly empty) graph, never `null`. -/
theorem c3_amended_null_only_for_absent_scene :
    buildGraphRuntime none = Except.ok none
    ∧ (∀ a, buildGraphRuntime (some ⟨none, a⟩)
        = Except.error "TypeError: Object.entries called on undefined")
    ∧ (∀ c, buildGraphRuntime (some ⟨some c, none⟩)
        = Except.error "TypeError: Object.keys called on undefined")
    ∧ (∀ c a, buildGraphRuntime (some ⟨some c, some a⟩)
        = Except.ok (some (buildGraphCore c a)))
    ∧ (∀ s : Option Scene, buildGraphFromScene s = none ↔ s = none) := by
  refine ⟨rfl, fun a => rfl, fun c => rfl, fun c a => rfl, ?_⟩
  intro s
  cases s <;> simp [buildGraphFromScene]

/-- C2 (counterexample): the colliding roster spellings `"A"` and `"a"`
share the normalized key `"a"`, yield one single node, and that node keeps
the FIRST raw spelling `"A"` as its id, not the normalized form `"a"` — so
"the node's id field equals the normalized form of the raw identifier it
came from" is false for character nodes. -/
theorem c2_counterexample :
    (buildGraphCore [("A", ⟨none, none, none⟩), ("a", ⟨none, none, none⟩)]
        [("e1", ⟨"t", "d", ["a"], ["A"]⟩)]).nodes
      = [⟨"A", "A", none, none⟩]
    ∧ normalizeId "A" = "a"
    ∧ normalizeId "a" = "a"
    ∧ ("A" : String) ≠ "a" := by
  decide

/-- C2 (amended): a character node's `id` is the FIRST raw roster spelling
encountered for its normalized key — `List.find?` over the roster at the
node's normalized id returns exactly the item whose raw spelling the node
carries — and its `label` is that spelling's display form; a group node's
`id` is the normalized form of some group token; and two raw roster
identifiers normalizing to the same key yield a single character node (the
normalized ids of the character-node list are pairwise distinct). -/
theorem c2_amended_node_identity :
    (∀ (chars : List (String × RawCharacterProfile)) (actions : List (String × SceneEvent))
        (n : GNode), n ∈ (buildGraphCore chars actions).nodes →
        (n.group = none ∧
          ∃ p, chars.find? (fun q => normalizeId q.1 = normalizeId n.id) = some p ∧
            n.id = p.1 ∧ n.label = formatDisplayName p.1)
        ∨ (n.group = some "group" ∧
            ∃ t ∈ groupStream (rosterEntries chars) actions, n.id = normalizeId t))
    ∧ (∀ (chars : List (String × RawCharacterProfile)) (actions : List (String × SceneEvent)),
        ((characterNodesOf chars actions).map (fun n => normalizeId n.id)).Nodup) := by
  constructor
  · intro chars actions n hn
    unfold buildGraphCore at hn
    simp only at hn
    rcases List.mem_append.mp hn with h | h
    · left
      unfold characterNodesOf at h
      rcases List.mem_map.mp h with ⟨e, he, rfl⟩
      have hmem := List.mem_of_mem_filter he
      obtain ⟨p, hfind, heq⟩ := rosterEntries_first chars e hmem
      have hnorm : e.normId = normalizeId e.rawId := by rw [heq]
      refine ⟨rfl, p, ?_, ?_, ?_⟩
      · show chars.find? (fun q => normalizeId q.1 = normalizeId e.rawId) = some p
        rw [← hnorm]
        exact hfind
      · show e.rawId = p.1
        rw [heq]
      · show e.label = formatDisplayName p.1
        rw [heq]
    · right
      unfold groupNodesOf at h
      rcases List.mem_map.mp h with ⟨p, hp, rfl⟩
      have hmem := List.mem_of_mem_filter hp
      refine ⟨rfl, ?_⟩
      have hkey : p.1 ∈ ((buildEdges (rosterEntries chars) actions).2).map Prod.fst :=
        List.mem_map.mpr ⟨p, hmem, rfl⟩
      obtain ⟨t, ht, hid⟩ := gm_keys_from_stream (rosterEntries chars) actions p.1 hkey
      exact ⟨t, ht, hid.symm⟩
  · intro chars actions
    unfold characterNodesOf
    rw [List.map_map]
    have hpmap : ∀ e ∈ (rosterEntries chars).filter
        (fun e => !(e.rawId = "") && usedNode (buildEdges (rosterEntries chars) actions).1 e.rawId),
        ((fun n : GNode => normalizeId n.id) ∘
          (fun e : RosterEntry => (⟨e.rawId, e.label, none, e.stats⟩ : GNode))) e = e.normId := by
      intro e he
      exact ((rosterEntries_normId chars e (List.mem_of_mem_filter he)).1).symm
    rw [List.map_congr_left hpmap]
    exact List.Nodup.sublist ((List.filter_sublist _).map _) (rosterEntries_nodup chars)

/-- C2 (amended, witness): the amended identity statement instantiated on a
scene whose roster holds the two colliding spellings `"A"` then `"a"`: the
single resulting node carries the first spelling `"A"`, and `List.find?` at
the node's normalized key returns the first roster item `("A", …)`. -/
theorem c2_amended_witness :
    (⟨"A", "A", none, none⟩ : GNode)
        ∈ (buildGraphCore [("A", ⟨none, none, none⟩), ("a", ⟨none, none, none⟩)]
            [("e1", ⟨"t", "d", ["a"], ["A"]⟩)]).nodes
    ∧ (((⟨"A", "A", none, none⟩ : GNode).group = none ∧
        ∃ p, [("A", (⟨none, none, none⟩ : RawCharacterProfile)),
              ("a", (⟨none, none, none⟩ : RawCharacterProfile))].find?
              (fun q => normalizeId q.1 = normalizeId (⟨"A", "A", none, none⟩ : GNode).id)
            = some p ∧
          (⟨"A", "A", none, none⟩ : GNode).id = p.1 ∧
          (⟨"A", "A", none, none⟩ : GNode).label = formatDisplayName p.1)
      ∨ ((⟨"A", "A", none, none⟩ : GNode).group = some "group" ∧
          ∃ t ∈ groupStream
              (rosterEntries [("A", ⟨none, none, none⟩), ("a", ⟨none, none, none⟩)])
              [("e1", ⟨"t", "d", ["a"], ["A"]⟩)],
            (⟨"A", "A", none, none⟩ : GNode).id = normalizeId t)) :=
  ⟨by decide,
   c2_amended_node_identity.1 [("A", ⟨none, none, none⟩), ("a", ⟨none, none, none⟩)]
     [("e1", ⟨"t", "d", ["a"], ["A"]⟩)] ⟨"A", "A", none, none⟩ (by decide)⟩

/-- C1 (counterexample): the group tokens `"a\tb"` and `"a b"` normalize to
the same id `"a b"` but format to different labels (`"A\tb"` and `"A B"`);
the first spelling encountered is `"a\tb"`, yet the emitted group node
carries the label of the LAST spelling, `"A B"` — "first label wins" is
false. -/
theorem c1_counterexample :
    (buildGraphCore [("x", ⟨none, none, none⟩)] [("e1", ⟨"t", "d", ["a\tb"], ["a b"]⟩)]).nodes
      = [⟨"a b", "A B", some "group", none⟩]
    ∧ formatDisplayName "a\tb" = "A\tb"
    ∧ normalizeId "a\tb" = "a b"
    ∧ normalizeId "a b" = "a b"
    ∧ ("A B" : String) ≠ "A\tb" := by
  decide

/-- C1 (amended): each group token is registered under its normalized id,
the keys of the group map are pairwise distinct (registered once), the
emitted participant id of a group token is exactly its normalized form, and
the stored label is the display form of the LAST raw spelling whose
normalization equals that id (last label wins). -/
theorem c1_amended_group_registration :
    (∀ (roster : List RosterEntry) (actions : List (String × SceneEvent)) (k : String),
        gmLookup (buildEdges roster actions).2 k
          = ((groupStream roster actions).filter
              (fun t => normalizeId t = k)).getLast?.map formatDisplayName)
    ∧ (∀ (roster : List RosterEntry) (actions : List (String × SceneEvent)),
        (((buildEdges roster actions).2).map Prod.fst).Nodup)
    ∧ (∀ (roster : List RosterEntry) (t : String),
        isGroupToken roster t = true → expandOne roster t = [normalizeId t]) := by
  refine ⟨final_gm_lookup, gm_keys_nodup, ?_⟩
  intro roster t ht
  rw [isGroupToken, Bool.and_eq_true, Bool.not_eq_true', Option.isNone_iff_eq_none] at ht
  unfold expandOne
  rw [if_neg (by simp [ht.1]), ht.2]

/-- C1 (amended, witness): on the concrete two-spelling scene, the final
group map stores the label of the last spelling, and the group token
expands to its normalized id. -/
theorem c1_amended_witness :
    gmLookup (buildEdges (rosterEntries [("x", ⟨none, none, none⟩)])
        [("e1", ⟨"t", "d", ["a\tb"], ["a b"]⟩)]).2 "a b" = some "A B"
    ∧ expandOne (rosterEntries [("x", ⟨none, none, none⟩)]) "a\tb" = ["a b"] := by
  constructor
  · rw [c1_amended_group_registration.1 (rosterEntries [("x", ⟨none, none, none⟩)])
      [("e1", ⟨"t", "d", ["a\tb"], ["a b"]⟩)] "a b"]
    decide
  · exact c1_amended_group_registration.2.2 (rosterEntries [("x", ⟨none, none, none⟩)])
      "a\tb" (by decide)

/-- C6 (counterexample): the roster character `"(a b)"` appears in no
event's initiator or receiver list (the only token is the different string
`"(a\nb)"`, which is not the wildcard and does not normalize to the
character's key), yet the character node is present in the output, because
the token's normalized id collides with the character's raw id — so
"a character appearing in no event's initiators or receivers is absent
from the output node list" is false. -/
theorem c6_counterexample :
    ((buildGraphCore [("(a b)", ⟨none, none, none⟩)]
        [("e1", ⟨"t", "d", ["(a\nb)"], ["(a\nb)"]⟩)]).nodes.map
          (fun n => (n.id, n.group)))
      = [("(a b)", none), ("(a b)", some "group")]
    ∧ ("(a b)" : String) ∉ (["(a\nb)"] : List String)
    ∧ isWildcard "(a\nb)" = false
    ∧ normalizeId "(a\nb)" ≠ normalizeId "(a b)" := by
  decide

/-- C6 (amended): every node in the output list is the source or target of
at least one emitted edge; consequently a roster character whose canonical
raw id occurs as no edge endpoint is absent from the output node list.
(Literal absence from all initiator/receiver lists is not sufficient: a
group token whose normalized id coincides with the character's raw id
re-introduces it, see the counterexample.) -/
theorem c6_amended_pruning :
    (∀ (chars : List (String × RawCharacterProfile)) (actions : List (String × SceneEvent))
        (n : GNode), n ∈ (buildGraphCore chars actions).nodes →
        ∃ e ∈ (buildGraphCore chars actions).edges, e.source = n.id ∨ e.target = n.id)
    ∧ (∀ (chars : List (String × RawCharacterProfile)) (actions : List (String × SceneEvent))
        (p : String × RawCharacterProfile), p ∈ chars →
        (∀ e ∈ (buildGraphCore chars actions).edges, e.source ≠ p.1 ∧ e.target ≠ p.1) →
        ∀ n ∈ (buildGraphCore chars actions).nodes, n.id ≠ p.1) := by
  constructor
  · exact fun chars actions => nodes_have_edge chars actions
  · intro chars actions p _ hnoedge n hn hid
    obtain ⟨e, he, hsrc⟩ := nodes_have_edge chars actions n hn
    rcases hsrc with h | h
    · exact (hnoedge e he).1 (h.trans hid)
    · exact (hnoedge e he).2 (h.trans hid)

/-- C6 (amended, witness): instantiation on the concrete scene where the
character `"a"` initiates an event received by `"b"`. -/
theorem c6_amended_witness :
    (⟨"a", "A", none, none⟩ : GNode)
        ∈ (buildGraphCore [("a", ⟨none, none, none⟩), ("b", ⟨none, none, none⟩)]
            [("e1", ⟨"t", "d", ["a"], ["b"]⟩)]).nodes
    ∧ ∃ e ∈ (buildGraphCore [("a", ⟨none, none, none⟩), ("b", ⟨none, none, none⟩)]
          [("e1", ⟨"t", "d", ["a"], ["b"]⟩)]).edges,
        e.source = (⟨"a", "A", none, none⟩ : GNode).id
          ∨ e.target = (⟨"a", "A", none, none⟩ : GNode).id :=
  ⟨by decide,
   c6_amended_pruning.1 [("a", ⟨none, none, none⟩), ("b", ⟨none, none, none⟩)]
     [("e1", ⟨"t", "d", ["a"], ["b"]⟩)] ⟨"a", "A", none, none⟩ (by decide)⟩

theorem flatMap_drop_empty_key {α : Type} (f : String → List α) (k : String)
    (hf : f k = []) :
    ∀ l : List String, l.flatMap f = (l.filter (fun x => x ≠ k)).flatMap f := by
  intro l
  induction l with
  | nil => rfl
  | cons x xs ih =>
    by_cases hx : x = k
    · subst hx
      simp only [List.flatMap_cons, hf, List.nil_append, List.filter_cons]
      rw [if_neg (by simp)]
      exact ih
    · simp only [List.flatMap_cons, List.filter_cons]
      rw [if_pos (by simpa using hx)]
      simp only [List.flatMap_cons]
      rw [ih]

/-- C10: an event with a nonempty initiator list and an empty receiver list
emits no edges at all — no self-loop is fabricated, the scene's edge list
equals the one obtained by dropping that event key, and (since pruning
depends only on edges) every retained node is still justified by some
other edge. -/
theorem c10_empty_receivers_drop :
    ∀ (chars : List (String × RawCharacterProfile)) (actions : List (String × SceneEvent))
      (key : String) (ev : SceneEvent),
      actionsLookup actions key = some ev → ev.receivers = [] →
      linksForKey (rosterEntries chars) actions key = []
      ∧ (buildGraphCore chars actions).edges
          = ((sortEventKeys (actions.map (fun p => p.1))).filter
              (fun k => k ≠ key)).flatMap (linksForKey (rosterEntries chars) actions)
      ∧ ∀ n ∈ (buildGraphCore chars actions).nodes,
          ∃ e ∈ (buildGraphCore chars actions).edges, e.source = n.id ∨ e.target = n.id := by
  intro chars actions key ev hlook hrecv
  have hlinks : linksForKey (rosterEntries chars) actions key = [] := by
    unfold linksForKey
    rw [hlook]
    show eventLinks (rosterEntries chars) ev = []
    unfold eventLinks
    rw [hrecv]
    simp
  refine ⟨hlinks, ?_, nodes_have_edge chars actions⟩
  show (buildGraphCore chars actions).edges = _
  unfold buildGraphCore
  simp only
  rw [buildEdges_fst]
  exact flatMap_drop_empty_key (linksForKey (rosterEntries chars) actions) key hlinks _

/-- C10 (witness): a concrete one-event scene whose single event has an
initiator and no receivers produces no edges and no nodes. -/
theorem c10_witness :
    actionsLookup [("e1", (⟨"t", "d", ["a"], []⟩ : SceneEvent))] "e1"
        = some (⟨"t", "d", ["a"], []⟩ : SceneEvent)
    ∧ linksForKey (rosterEntries [("a", ⟨none, none, none⟩)])
        [("e1", ⟨"t", "d", ["a"], []⟩)] "e1" = []
    ∧ (buildGraphCore [("a", ⟨none, none, none⟩)] [("e1", ⟨"t", "d", ["a"], []⟩)]).edges = []
    ∧ (buildGraphCore [("a", ⟨none, none, none⟩)] [("e1", ⟨"t", "d", ["a"], []⟩)]).nodes = [] :=
  ⟨by decide,
   (c10_empty_receivers_drop [("a", ⟨none, none, none⟩)] [("e1", ⟨"t", "d", ["a"], []⟩)]
      "e1" ⟨"t", "d", ["a"], []⟩ (by decide) (by decide)).1,
   by decide, by decide⟩

/-! ## Force-engine lemmas: fixed nodes are untouched by every tick phase -/

theorem applyForceN_fixed (n : PNode) (fx fy : ℚ) (h : n.isFixed = true) :
    applyForceN n fx fy = n := by
  unfold applyForceN
  rw [if_pos h]

theorem modifyIdx_preserves_fixed (l : List PNode) (j : Nat) (f : PNode → PNode)
    (hf : ∀ m : PNode, m.isFixed = true → f m = m) (i : Nat) (n : PNode)
    (hi : l[i]? = some n) (hfix : n.isFixed = true) :
    (modifyIdx l j f)[i]? = some n := by
  unfold modifyIdx
  cases hj : l[j]? with
  | none => exact hi
  | some a =>
    by_cases hij : i = j
    · subst hij
      rw [hi] at hj
      cases hj
      rw [List.getElem?_set_eq_of_lt (f n) (List.getElem?_eq_some.mp hi).1, hf n hfix]
    · rw [List.getElem?_set_ne (fun hh => hij hh.symm)]
      exact hi

theorem foldl_preserves_fixed {β : Type} (step : List PNode → β → List PNode)
    (hstep : ∀ (acc : List PNode) (b : β) (i : Nat) (n : PNode),
      acc[i]? = some n → n.isFixed = true → (step acc b)[i]? = some n) :
    ∀ (xs : List β) (l : List PNode) (i : Nat) (n : PNode),
      l[i]? = some n → n.isFixed = true → (xs.foldl step l)[i]? = some n := by
  intro xs
  induction xs with
  | nil => intro l i n hi _; exact hi
  | cons b bs ih =>
    intro l i n hi hfix
    exact ih (step l b) i n (hstep l b i n hi hfix) hfix

theorem repulsionStep_preserves_fixed (sq : ℚ → ℚ) (l : List PNode) (p : Nat × Nat)
    (i : Nat) (n : PNode) (hi : l[i]? = some n) (hfix : n.isFixed = true) :
    (repulsionStep sq l p)[i]? = some n := by
  unfold repulsionStep
  cases h1 : l[p.1]? with
  | none => exact hi
  | some a =>
    cases h2 : l[p.2]? with
    | none => exact hi
    | some b =>
      apply modifyIdx_preserves_fixed
      · intro m hm; exact applyForceN_fixed m _ _ hm
      · apply modifyIdx_preserves_fixed
        · intro m hm; exact applyForceN_fixed m _ _ hm
        · exact hi
        · exact hfix
      · exact hfix

theorem springStep_preserves_fixed (sq : ℚ → ℚ) (l : List PNode) (lk : Nat × Nat)
    (i : Nat) (n : PNode) (hi : l[i]? = some n) (hfix : n.isFixed = true) :
    (springStep sq l lk)[i]? = some n := by
  unfold springStep
  cases h1 : l[lk.1]? with
  | none => exact hi
  | some a =>
    cases h2 : l[lk.2]? with
    | none => exact hi
    | some b =>
      apply modifyIdx_preserves_fixed
      · intro m hm; exact applyForceN_fixed m _ _ hm
      · apply modifyIdx_preserves_fixed
        · intro m hm; exact applyForceN_fixed m _ _ hm
        · exact hi
        · exact hfix
      · exact hfix

theorem centeringPhase_preserves_fixed (l : List PNode) (i : Nat) (n : PNode)
    (hi : l[i]? = some n) (hfix : n.isFixed = true) :
    (centeringPhase l)[i]? = some n := by
  unfold centeringPhase
  rw [List.getElem?_map _ l i, hi]
  show some (applyForceN n _ _) = some n
  rw [applyForceN_fixed n _ _ hfix]

theorem integratePhase_preserves_fixed (l : List PNode) (i : Nat) (n : PNode)
    (hi : l[i]? = some n) (hfix : n.isFixed = true) :
    (integratePhase l)[i]? = some n := by
  unfold integratePhase
  rw [List.getElem?_map _ l i, hi]
  show some (integrateNode n) = some n
  unfold integrateNode
  rw [if_pos hfix]

/-- C5: for every node whose `isFixed` flag is true, one full simulation
tick (repulsion, springs, centering, integration) leaves the node — in
particular its `x`, `y`, `vx`, `vy` fields — completely unchanged, for every
square-root function, link list and simulation state. -/
theorem c5_fixed_node_unchanged_by_tick :
    ∀ (sq : ℚ → ℚ) (links : List (Nat × Nat)) (l : List PNode) (i : Nat) (n : PNode),
      l[i]? = some n → n.isFixed = true → (tick sq links l)[i]? = some n := by
  intro sq links l i n hi hfix
  unfold tick
  apply integratePhase_preserves_fixed
  · apply centeringPhase_preserves_fixed
    · apply foldl_preserves_fixed (springStep sq)
      · intro acc b j m hj hm
        exact springStep_preserves_fixed sq acc b j m hj hm
      · apply foldl_preserves_fixed (repulsionStep sq)
        · intro acc b j m hj hm
          exact repulsionStep_preserves_fixed sq acc b j m hj hm
        · exact hi
        · exact hfix
      · exact hfix
    · exact hfix
  · exact hfix

/-- C5 (witness): a concrete pinned node with nonzero velocity is untouched
by a tick with a self-link present. -/
theorem c5_witness :
    ([(⟨"a", 5, 6, 3, 4, true⟩ : PNode)])[0]? = some (⟨"a", 5, 6, 3, 4, true⟩ : PNode)
    ∧ (tick (fun q => q) [(0, 0)] [(⟨"a", 5, 6, 3, 4, true⟩ : PNode)])[0]?
        = some (⟨"a", 5, 6, 3, 4, true⟩ : PNode) :=
  ⟨by decide,
   c5_fixed_node_unchanged_by_tick (fun q => q) [(0, 0)] [⟨"a", 5, 6, 3, 4, true⟩] 0
     ⟨"a", 5, 6, 3, 4, true⟩ (by decide) (by decide)⟩

/-- C4 (counterexample): a node dragged to the pointer position `(0, 0)` is
written unclamped and pinned; the following tick leaves it at `(0, 0)`,
outside `[NODE_RADIUS, dimension − NODE_RADIUS]` on both axes — so the
boundary clamp does NOT hold for all nodes regardless of `isFixed` and
drag-move writes. -/
theorem c4_counterexample :
    tick (fun q => q) [] (updateDraggedNode [⟨"n", 100, 100, 0, 0, false⟩] "n" 0 0)
      = [⟨"n", 0, 0, 0, 0, true⟩]
    ∧ ¬(NODE_RADIUS ≤ (0 : ℚ)) := by
  decide

theorem le_ratMax_left (a b : ℚ) : a ≤ ratMax a b := by
  unfold ratMax
  by_cases h : a ≤ b
  · rw [if_pos h]; exact h
  · rw [if_neg h]

theorem ratMax_le {a b c : ℚ} (h₁ : a ≤ c) (h₂ : b ≤ c) : ratMax a b ≤ c := by
  unfold ratMax
  by_cases h : a ≤ b
  · rw [if_pos h]; exact h₂
  · rw [if_neg h]; exact h₁

theorem ratMin_le_left (a b : ℚ) : ratMin a b ≤ a := by
  unfold ratMin
  by_cases h : a ≤ b
  · rw [if_pos h]
  · rw [if_neg h]; exact le_of_not_le h

/-- C4 (amended): after the integration phase of a tick, every node whose
`isFixed` flag is false lies inside `[NODE_RADIUS, GRAPH_WIDTH −
NODE_RADIUS] × [NODE_RADIUS, GRAPH_HEIGHT − NODE_RADIUS]`; fixed nodes are
skipped by integration and keep their (possibly out-of-bounds) drag-written
position. -/
theorem c4_amended_clamp_free_nodes :
    ∀ (sq : ℚ → ℚ) (links : List (Nat × Nat)) (l : List PNode) (n : PNode),
      n ∈ tick sq links l → n.isFixed = false →
      NODE_RADIUS ≤ n.x ∧ n.x ≤ GRAPH_WIDTH - NODE_RADIUS ∧
      NODE_RADIUS ≤ n.y ∧ n.y ≤ GRAPH_HEIGHT - NODE_RADIUS := by
  intro sq links l n hn hfree
  unfold tick integratePhase at hn
  rcases List.mem_map.mp hn with ⟨m, _, rfl⟩
  unfold integrateNode at hfree ⊢
  by_cases hm : m.isFixed = true
  · rw [if_pos hm] at hfree
    rw [hm] at hfree
    cases hfree
  · rw [Bool.not_eq_true] at hm
    rw [if_neg (by rw [hm]; simp)] at hfree ⊢
    simp only
    refine ⟨le_ratMax_left _ _, ?_, le_ratMax_left _ _, ?_⟩
    · apply ratMax_le
      · rw [NODE_RADIUS, GRAPH_WIDTH]; norm_num
      · exact ratMin_le_left _ _
    · apply ratMax_le
      · rw [NODE_RADIUS, GRAPH_HEIGHT]; norm_num
      · exact ratMin_le_left _ _

/-- C4 (amended, witness): a free node starting far outside the viewport is
clamped into the rectangle by one tick. -/
theorem c4_amended_witness :
    (⟨"n", 18, 462, 437 / 500, -437 / 250, false⟩ : PNode)
        ∈ tick (fun q => q) [] [⟨"n", 0, 1000, 0, 0, false⟩]
    ∧ (NODE_RADIUS ≤ (⟨"n", 18, 462, 437 / 500, -437 / 250, false⟩ : PNode).x ∧
        (⟨"n", 18, 462, 437 / 500, -437 / 250, false⟩ : PNode).x ≤ GRAPH_WIDTH - NODE_RADIUS ∧
        NODE_RADIUS ≤ (⟨"n", 18, 462, 437 / 500, -437 / 250, false⟩ : PNode).y ∧
        (⟨"n", 18, 462, 437 / 500, -437 / 250, false⟩ : PNode).y ≤ GRAPH_HEIGHT - NODE_RADIUS) := by
  have htick : tick (fun q => q) [] [⟨"n", 0, 1000, 0, 0, false⟩]
      = [⟨"n", 18, 462, 437 / 500, -437 / 250, false⟩] := by decide
  have hmem : (⟨"n", 18, 462, 437 / 500, -437 / 250, false⟩ : PNode)
      ∈ tick (fun q => q) [] [⟨"n", 0, 1000, 0, 0, false⟩] := by
    rw [htick]
    exact List.mem_singleton.mpr rfl
  exact ⟨hmem,
    c4_amended_clamp_free_nodes (fun q => q) [] [⟨"n", 0, 1000, 0, 0, false⟩]
      ⟨"n", 18, 462, 437 / 500, -437 / 250, false⟩ hmem (by decide)⟩

/-! ## Curve bundler facts -/

/-- The unordered endpoint pair of an edge (lexicographically sorted). -/
def unorderedPair (e : GEdge) : String × String :=
  if jsStrLt e.target e.source then (e.target, e.source) else (e.source, e.target)

theorem sortedPairKey_eq_join (e : GEdge) :
    sortedPairKey e = (unorderedPair e).1 ++ "|" ++ (unorderedPair e).2 := by
  unfold sortedPairKey unorderedPair
  by_cases h : jsStrLt e.target e.source
  · rw [if_pos h, if_pos h]
  · rw [if_neg h, if_neg h]

theorem groupOffsets_length (n : Nat) : (groupOffsets n).length = n := by
  unfold groupOffsets
  by_cases h : n = 1
  · rw [if_pos h, h]
    rfl
  · rw [if_neg h]
    simp

theorem sum_map_range_cast (n : Nat) :
    ((List.range n).map (fun (i : Nat) => (i : ℚ))).sum = n * ((n : ℚ) - 1) / 2 := by
  induction n with
  | zero => simp
  | succ m ih =>
    rw [List.range_succ, List.map_append, List.sum_append, ih]
    simp only [List.map_cons, List.map_nil, List.sum_cons, List.sum_nil]
    push_cast
    ring

theorem sum_map_sub_const (l : List Nat) (c : ℚ) :
    (l.map (fun (i : Nat) => (i : ℚ) - c)).sum
      = (l.map (fun (i : Nat) => (i : ℚ))).sum - l.length * c := by
  induction l with
  | nil => simp
  | cons x xs ih =>
    simp only [List.map_cons, List.sum_cons, ih, List.length_cons]
    push_cast
    ring

/-- The offsets of every bundle sum to zero. -/
theorem groupOffsets_sum (n : Nat) : (groupOffsets n).sum = 0 := by
  unfold groupOffsets
  by_cases h : n = 1
  · rw [if_pos h]
    simp
  · rw [if_neg h, sum_map_sub_const, sum_map_range_cast]
    simp only [List.length_range]
    ring

/-- The offsets of every bundle are symmetric around zero: the reversed
offset list is the pointwise negation. -/
theorem groupOffsets_symm (n : Nat) :
    (groupOffsets n).reverse = (groupOffsets n).map (fun q => -q) := by
  unfold groupOffsets
  by_cases h : n = 1
  · rw [if_pos h]
    simp
  · rw [if_neg h]
    apply List.ext_getElem
    · simp
    · intro i h₁ h₂
      simp only [List.length_reverse, List.length_map, List.length_range] at h₁ h₂
      rw [List.getElem_reverse]
      simp only [List.getElem_map, List.getElem_range, List.length_map, List.length_range]
      have hn1 : n - 1 - i = n - (1 + i) := by omega
      have hcast : ((n - 1 - i : Nat) : ℚ) = (n : ℚ) - 1 - i := by
        rw [hn1, Nat.cast_sub (by omega : 1 + i ≤ n)]
        push_cast
        ring
      rw [hcast]
      ring

/-- Every member of a group produced by `groupByKey` has that group's key. -/
theorem groupByKey_member_key (edges : List GEdge) :
    ∀ g ∈ groupByKey edges, ∀ e ∈ g.2, sortedPairKey e = g.1 := by
  unfold groupByKey
  suffices h : ∀ (l : List GEdge) (acc : List (String × List GEdge)),
      (∀ g ∈ acc, ∀ e ∈ g.2, sortedPairKey e = g.1) →
      ∀ g ∈ l.foldl
          (fun acc e =>
            let k := sortedPairKey e
            if acc.any (fun p => p.1 = k) then
              acc.map (fun p => if p.1 = k then (p.1, p.2 ++ [e]) else p)
            else acc ++ [(k, [e])]) acc,
        ∀ e ∈ g.2, sortedPairKey e = g.1 from
    fun g hg => h edges [] (by simp) g hg
  intro l
  induction l with
  | nil => intro acc hacc g hg; exact hacc g hg
  | cons e₀ es ih =>
    intro acc hacc g hg
    simp only [List.foldl_cons] at hg
    refine ih _ ?_ g hg
    intro g₂ hg₂ e₂ he₂
    by_cases hany : acc.any (fun p => p.1 = sortedPairKey e₀)
    · rw [if_pos hany] at hg₂
      rcases List.mem_map.mp hg₂ with ⟨p, hp, rfl⟩
      by_cases hpk : p.1 = sortedPairKey e₀
      · rw [if_pos hpk] at he₂ ⊢
        simp only at he₂ ⊢
        rcases List.mem_append.mp he₂ with h₂ | h₂
        · exact hacc p hp e₂ h₂
        · rw [List.mem_singleton.mp h₂, hpk]
      · rw [if_neg hpk] at he₂ ⊢
        exact hacc p hp e₂ he₂
    · rw [if_neg hany] at hg₂
      rcases List.mem_append.mp hg₂ with h₂ | h₂
      · exact hacc g₂ h₂ e₂ he₂
      · rw [List.mem_singleton.mp h₂] at he₂ ⊢
        rw [List.mem_singleton.mp he₂]

theorem append_sep_inj (sep : Char) :
    ∀ (u v u₂ v₂ : List Char), sep ∉ u → sep ∉ u₂ →
      u ++ sep :: v = u₂ ++ sep :: v₂ → u = u₂ ∧ v = v₂ := by
  intro u
  induction u with
  | nil =>
    intro v u₂ v₂ _ hu₂ h
    cases u₂ with
    | nil => simpa using h
    | cons c cs =>
      simp only [List.nil_append, List.cons_append, List.cons.injEq] at h
      exact absurd (by rw [h.1]; exact List.mem_cons_self c cs) hu₂
  | cons c cs ih =>
    intro v u₂ v₂ hu hu₂ h
    cases u₂ with
    | nil =>
      simp only [List.cons_append, List.nil_append, List.cons.injEq] at h
      exact absurd (by rw [← h.1]; exact List.mem_cons_self c cs) hu
    | cons c₂ cs₂ =>
      simp only [List.cons_append, List.cons.injEq] at h
      have hcs := ih v cs₂ v₂ (fun hm => hu (List.mem_cons_of_mem c hm))
        (fun hm => hu₂ (List.mem_cons_of_mem c₂ hm)) h.2
      exact ⟨by rw [h.1, hcs.1], hcs.2⟩

theorem key_eq_iff_pair_eq (e₁ e₂ : GEdge)
    (h₁s : '|' ∉ e₁.source.data) (h₁t : '|' ∉ e₁.target.data)
    (h₂s : '|' ∉ e₂.source.data) (h₂t : '|' ∉ e₂.target.data) :
    sortedPairKey e₁ = sortedPairKey e₂ ↔ unorderedPair e₁ = unorderedPair e₂ := by
  constructor
  · intro h
    rw [sortedPairKey_eq_join, sortedPairKey_eq_join] at h
    have hd : ((unorderedPair e₁).1 ++ "|" ++ (unorderedPair e₁).2).data
        = ((unorderedPair e₂).1 ++ "|" ++ (unorderedPair e₂).2).data := by rw [h]
    rw [String.data_append, String.data_append, String.data_append, String.data_append] at hd
    have hsep : ("|" : String).data = ['|'] := rfl
    rw [hsep] at hd
    simp only [List.append_assoc, List.singleton_append] at hd
    have h₁ : '|' ∉ (unorderedPair e₁).1.data := by
      unfold unorderedPair
      by_cases hc : jsStrLt e₁.target e₁.source
      · rw [if_pos hc]; exact h₁t
      · rw [if_neg hc]; exact h₁s
    have h₂ : '|' ∉ (unorderedPair e₂).1.data := by
      unfold unorderedPair
      by_cases hc : jsStrLt e₂.target e₂.source
      · rw [if_pos hc]; exact h₂t
      · rw [if_neg hc]; exact h₂s
    have hres := append_sep_inj '|' _ _ _ _ h₁ h₂ hd
    exact Prod.ext (String.ext hres.1) (String.ext hres.2)
  · intro h
    rw [sortedPairKey_eq_join, sortedPairKey_eq_join, h]

/-- The curve indexes of a decorated group are exactly the centered
offsets. -/
theorem decorateGroup_curveIndexes (g : String × List GEdge) :
    (decorateGroup g).map (fun d => d.curveIndex) = groupOffsets g.2.length := by
  unfold decorateGroup
  rw [List.mapIdx_eq_enum_map, List.enum_eq_zip_range, List.map_map]
  have hlen : (groupOffsets g.2.length).length = g.2.length := groupOffsets_length _
  apply List.ext_getElem
  · simp [hlen, List.length_zip]
  · intro i h₁ h₂
    simp only [List.length_map, List.length_zip, List.length_range] at h₁
    have hi : i < g.2.length := by omega
    simp only [List.getElem_map, List.getElem_zip, List.getElem_range]
    simp only [Function.comp_apply, Function.uncurry_apply_pair]
    rw [List.getD_eq_getElem _ _ (by rw [hlen]; exact hi)]

/-- C7 (counterexample): with ids containing the separator `'|'`, the
edges `"a|b" → "c"` and `"a" → "b|c"` have different unordered endpoint
pairs yet share the join key `"a|b|c"`, so the bundler puts them into ONE
group of size 2 with offsets `±1/2` — the claim that grouping is by the
unordered endpoint pair (which would give each edge offset 0) is false. -/
theorem c7_counterexample :
    (decoratedEdges [⟨"a|b", "c", none⟩, ⟨"a", "b|c", none⟩]).map
        (fun d => (d.curveIndex, d.groupSize))
      = [(-1 / 2, 2), (1 / 2, 2)]
    ∧ unorderedPair ⟨"a|b", "c", none⟩ ≠ unorderedPair ⟨"a", "b|c", none⟩
    ∧ sortedPairKey ⟨"a|b", "c", none⟩ = sortedPairKey ⟨"a", "b|c", none⟩
    ∧ ((-1 : ℚ) / 2) ≠ 0 := by
  decide

/-- C7 (amended): the bundler groups edges by the string key obtained by
joining the lexicographically sorted endpoint ids with `'|'`; when no id
contains `'|'` this key coincides exactly with the unordered endpoint
pair.  Within every group of size `n` the assigned curve indexes are the
`n` integers or half-integers `i − (n−1)/2` centered at zero (n=1 gives
{0}, n=2 gives {−1/2, +1/2}, n=3 gives {−1, 0, +1}); in every group the
offsets sum to zero and the offset list is symmetric around zero. -/
theorem c7_amended_bundling :
    (∀ (edges : List GEdge) (g : String × List GEdge), g ∈ groupByKey edges →
        (∀ e ∈ g.2, sortedPairKey e = g.1)
        ∧ (decorateGroup g).map (fun d => d.curveIndex) = groupOffsets g.2.length
        ∧ (groupOffsets g.2.length).sum = 0
        ∧ (groupOffsets g.2.length).reverse = (groupOffsets g.2.length).map (fun q => -q))
    ∧ (∀ edges : List GEdge, decoratedEdges edges = (groupByKey edges).flatMap decorateGroup)
    ∧ (∀ e₁ e₂ : GEdge,
        '|' ∉ e₁.source.data → '|' ∉ e₁.target.data →
        '|' ∉ e₂.source.data → '|' ∉ e₂.target.data →
        (sortedPairKey e₁ = sortedPairKey e₂ ↔ unorderedPair e₁ = unorderedPair e₂)) := by
  refine ⟨?_, fun edges => rfl, key_eq_iff_pair_eq⟩
  intro edges g hg
  exact ⟨groupByKey_member_key edges g hg, decorateGroup_curveIndexes g,
    groupOffsets_sum _, groupOffsets_symm _⟩

/-- C7 (amended, witness): three parallel edges between `"a"` and `"b"`
form one group with offsets `{−1, 0, +1}`, and on `'|'`-free ids key
equality coincides with unordered-pair equality. -/
theorem c7_amended_witness :
    ("a|b", [(⟨"a", "b", none⟩ : GEdge), ⟨"b", "a", none⟩, ⟨"a", "b", some "x"⟩])
        ∈ groupByKey [(⟨"a", "b", none⟩ : GEdge), ⟨"b", "a", none⟩, ⟨"a", "b", some "x"⟩]
    ∧ (decorateGroup ("a|b",
          [(⟨"a", "b", none⟩ : GEdge), ⟨"b", "a", none⟩, ⟨"a", "b", some "x"⟩])).map
        (fun d => d.curveIndex) = [-1, 0, 1]
    ∧ (sortedPairKey ⟨"a", "b", none⟩ = sortedPairKey ⟨"b", "a", none⟩
        ↔ unorderedPair ⟨"a", "b", none⟩ = unorderedPair ⟨"b", "a", none⟩) := by
  refine ⟨by decide, ?_, ?_⟩
  · have h := (c7_amended_bundling.1
      [(⟨"a", "b", none⟩ : GEdge), ⟨"b", "a", none⟩, ⟨"a", "b", some "x"⟩]
      ("a|b", [(⟨"a", "b", none⟩ : GEdge), ⟨"b", "a", none⟩, ⟨"a", "b", some "x"⟩])
      (by decide)).2.1
    rw [h]
    decide
  · exact c7_amended_bundling.2.2 ⟨"a", "b", none⟩ ⟨"b", "a", none⟩
      (by decide) (by decide) (by decide) (by decide)

/-! ## Event-key sort: sortedness and stability -/

theorem mem_insertByKey (x : String) :
    ∀ (l : List String) (a : String), a ∈ insertByKey x l ↔ a = x ∨ a ∈ l := by
  intro l
  induction l with
  | nil => intro a; simp [insertByKey]
  | cons y ys ih =>
    intro a
    unfold insertByKey
    by_cases h : numberFromKey y ≤ numberFromKey x
    · rw [if_pos h]
      simp only [List.mem_cons, ih]
      tauto
    · rw [if_neg h]
      simp [List.mem_cons]

theorem sorted_insertByKey (x : String) :
    ∀ l : List String,
      List.Sorted (fun a b => numberFromKey a ≤ numberFromKey b) l →
      List.Sorted (fun a b => numberFromKey a ≤ numberFromKey b) (insertByKey x l) := by
  intro l
  induction l with
  | nil => intro _; simp [insertByKey]
  | cons y ys ih =>
    intro h
    rw [List.sorted_cons] at h
    unfold insertByKey
    by_cases hle : numberFromKey y ≤ numberFromKey x
    · rw [if_pos hle, List.sorted_cons]
      constructor
      · intro b hb
        rcases (mem_insertByKey x ys b).mp hb with hb | hb
        · rw [hb]; exact hle
        · exact h.1 b hb
      · exact ih h.2
    · rw [if_neg hle, List.sorted_cons]
      constructor
      · intro b hb
        rcases List.mem_cons.mp hb with hb | hb
        · rw [hb]; omega
        · have hyb := h.1 b hb
          omega
      · rw [List.sorted_cons]
        exact h

theorem perm_insertByKey (x : String) :
    ∀ l : List String, (insertByKey x l).Perm (x :: l) := by
  intro l
  induction l with
  | nil => simp [insertByKey]
  | cons y ys ih =>
    unfold insertByKey
    by_cases h : numberFromKey y ≤ numberFromKey x
    · rw [if_pos h]
      exact (ih.cons y).trans (List.Perm.swap x y ys)
    · rw [if_neg h]

theorem sortEventKeys_sorted (keys : List String) :
    List.Sorted (fun a b => numberFromKey a ≤ numberFromKey b) (sortEventKeys keys) := by
  unfold sortEventKeys
  suffices h : ∀ (l : List String) (acc : List String),
      List.Sorted (fun a b => numberFromKey a ≤ numberFromKey b) acc →
      List.Sorted (fun a b => numberFromKey a ≤ numberFromKey b)
        (l.foldl (fun acc k => insertByKey k acc) acc) from
    h keys [] (by simp)
  intro l
  induction l with
  | nil => intro acc h; exact h
  | cons k ks ih =>
    intro acc h
    exact ih (insertByKey k acc) (sorted_insertByKey k acc h)

theorem sortEventKeys_perm (keys : List String) : (sortEventKeys keys).Perm keys := by
  unfold sortEventKeys
  suffices h : ∀ (l : List String) (acc : List String),
      (l.foldl (fun acc k => insertByKey k acc) acc).Perm (acc ++ l) from by
    have h₂ := h keys []
    simpa using h₂
  intro l
  induction l with
  | nil => intro acc; simp
  | cons k ks ih =>
    intro acc
    have h₁ := ih (insertByKey k acc)
    have h₂ : (insertByKey k acc ++ ks).Perm ((k :: acc) ++ ks) :=
      (perm_insertByKey k acc).append_right ks
    have h₃ : ((k :: acc) ++ ks).Perm (acc ++ k :: ks) := by
      simp only [List.cons_append]
      exact List.perm_middle.symm
    simp only [List.foldl_cons]
    exact (h₁.trans h₂).trans h₃

/-- C9: `buildGraphFromScene` is deterministic — equal scenes give equal
results in content and order — with character nodes first (in
roster-encounter order, as produced by the roster fold) followed by group
nodes (in first-seen order), and edges laid out event by event over the
keys sorted by ascending embedded number, with the initiator × receiver
cross product in initiator-then-receiver order inside one event. -/
theorem c9_determinism_and_order :
    (∀ s : Option Scene, buildGraphFromScene s = buildGraphFromScene s)
    ∧ (∀ (chars : List (String × RawCharacterProfile)) (actions : List (String × SceneEvent)),
        (buildGraphCore chars actions).nodes
          = characterNodesOf chars actions ++ groupNodesOf chars actions)
    ∧ (∀ keys : List String,
        List.Sorted (fun a b => numberFromKey a ≤ numberFromKey b) (sortEventKeys keys))
    ∧ (∀ keys : List String, (sortEventKeys keys).Perm keys)
    ∧ (∀ (chars : List (String × RawCharacterProfile)) (actions : List (String × SceneEvent)),
        (buildGraphCore chars actions).edges
          = (sortEventKeys (actions.map (fun p => p.1))).flatMap
              (linksForKey (rosterEntries chars) actions))
    ∧ (∀ (roster : List RosterEntry) (ev : SceneEvent),
        eventLinks roster ev
          = (ev.initiators.flatMap (expandOne roster)).flatMap
              (fun s => (ev.receivers.flatMap (expandOne roster)).map
                (fun t => ⟨s, t, some ev.title⟩))) :=
  ⟨fun _ => rfl, fun _ _ => rfl, sortEventKeys_sorted, sortEventKeys_perm,
   fun chars actions => buildEdges_fst (rosterEntries chars) actions,
   fun _ _ => rfl⟩

/-! ## Normalization idempotence machinery

`normalizeName` fails to be idempotent only through line terminators (the
lazy dot of the stripping regex cannot cross them, but the whitespace
collapse afterwards turns them into plain spaces, which can create a fresh
parenthetical match).  The development below proves idempotence for
line-terminator-free inputs. -/

/-- No line terminator occurs in the string. -/
def lineFree (s : List Char) : Bool := s.all (fun c => !isLineTerm c)

/-- No `'('` is followed (anywhere later) by a `')'`: on such strings the
stripping regex has no match. -/
def ocFree : List Char → Bool
  | [] => true
  | c :: cs => (!(c = '(') || !(cs.any (fun d => d = ')'))) && ocFree cs

theorem char_eq_of_toNat (a b : Char) (h : a.toNat = b.toNat) : a = b :=
  Char.eq_of_val_eq (UInt32.ext h)

theorem toNat_ofNat_small (n : Nat) (h : n < 55296) : (Char.ofNat n).toNat = n := by
  unfold Char.ofNat
  rw [dif_pos (Or.inl h)]
  rfl

theorem isWs_iff (c : Char) : isWs c = true ↔ c.toNat ∈ wsCodes := by
  unfold isWs
  exact decide_eq_true_iff

theorem isWs_ne_lparen {c : Char} (h : isWs c = true) : c ≠ '(' := by
  intro hc
  subst hc
  exact absurd h (by decide)

theorem isWs_ne_rparen {c : Char} (h : isWs c = true) : c ≠ ')' := by
  intro hc
  subst hc
  exact absurd h (by decide)

theorem lowerChar_toNat (c : Char) :
    (lowerChar c).toNat
      = if 65 ≤ c.toNat ∧ c.toNat ≤ 90 then c.toNat + 32 else c.toNat := by
  unfold lowerChar
  by_cases h : 65 ≤ c.toNat ∧ c.toNat ≤ 90
  · rw [if_pos h, if_pos h]
    exact toNat_ofNat_small _ (by omega)
  · rw [if_neg h, if_neg h]

theorem lowerChar_lparen_iff (c : Char) : lowerChar c = '(' ↔ c = '(' := by
  constructor
  · intro h
    have ht : (lowerChar c).toNat = 40 := by rw [h]; rfl
    rw [lowerChar_toNat] at ht
    by_cases hr : 65 ≤ c.toNat ∧ c.toNat ≤ 90
    · rw [if_pos hr] at ht; omega
    · rw [if_neg hr] at ht
      exact char_eq_of_toNat c '(' ht
  · intro h
    rw [h]
    rfl

theorem lowerChar_rparen_iff (c : Char) : lowerChar c = ')' ↔ c = ')' := by
  constructor
  · intro h
    have ht : (lowerChar c).toNat = 41 := by rw [h]; rfl
    rw [lowerChar_toNat] at ht
    by_cases hr : 65 ≤ c.toNat ∧ c.toNat ≤ 90
    · rw [if_pos hr] at ht; omega
    · rw [if_neg hr] at ht
      exact char_eq_of_toNat c ')' ht
  · intro h
    rw [h]
    rfl

theorem isWs_lowerChar (c : Char) : isWs (lowerChar c) = isWs c := by
  by_cases hr : 65 ≤ c.toNat ∧ c.toNat ≤ 90
  · have h₁ : isWs (lowerChar c) = false := by
      rw [Bool.eq_false_iff]
      intro h
      rw [isWs_iff, lowerChar_toNat, if_pos hr] at h
      revert h
      unfold wsCodes
      intro h
      simp only [List.mem_cons, List.not_mem_nil, or_false] at h
      omega
    have h₂ : isWs c = false := by
      rw [Bool.eq_false_iff]
      intro h
      rw [isWs_iff] at h
      revert h
      unfold wsCodes
      intro h
      simp only [List.mem_cons, List.not_mem_nil, or_false] at h
      omega
    rw [h₁, h₂]
  · unfold lowerChar
    rw [if_neg hr]

theorem lowerChar_idem (c : Char) : lowerChar (lowerChar c) = lowerChar c := by
  by_cases hr : 65 ≤ c.toNat ∧ c.toNat ≤ 90
  · have hlc : (lowerChar c).toNat = c.toNat + 32 := by
      rw [lowerChar_toNat, if_pos hr]
    apply char_eq_of_toNat
    rw [lowerChar_toNat (lowerChar c), if_neg (by rw [hlc]; omega)]
  · unfold lowerChar
    rw [if_neg hr, if_neg hr]

theorem lowerChar_space : lowerChar ' ' = ' ' := rfl

/-! ### `stripParens` facts -/

theorem findClose_subset : ∀ {l r : List Char}, findClose l = some r → ∀ a ∈ r, a ∈ l := by
  intro l
  induction l with
  | nil => intro r h; simp [findClose] at h
  | cons c cs ih =>
    intro r h a ha
    unfold findClose at h
    split at h
    · cases h
      exact List.mem_cons_of_mem c ha
    · split at h
      · cases h
      · exact List.mem_cons_of_mem c (ih h a ha)

theorem findClose_none_of_no_rparen :
    ∀ {l : List Char}, ')' ∉ l → findClose l = none := by
  intro l
  induction l with
  | nil => intro _; rfl
  | cons c cs ih =>
    intro h
    unfold findClose
    rw [if_neg (fun hc => h (by rw [hc]; exact List.mem_cons_self ')' cs))]
    by_cases hl : isLineTerm c
    · rw [if_pos hl]
    · rw [if_neg hl]
      exact ih (fun hm => h (List.mem_cons_of_mem c hm))

theorem no_rparen_of_findClose_none :
    ∀ {l : List Char}, lineFree l = true → findClose l = none → ')' ∉ l := by
  intro l
  induction l with
  | nil => intro _ _; simp
  | cons c cs ih =>
    intro hlf h hm
    unfold findClose at h
    rw [lineFree, List.all_cons, Bool.and_eq_true] at hlf
    split at h
    · cases h
    · split at h
      · rename_i hlt
        rw [Bool.not_eq_true'] at hlf
        rw [hlf.1] at hlt
        cases hlt
      · rcases List.mem_cons.mp hm with hm | hm
        · rename_i hc _
          exact hc hm.symm
        · exact ih hlf.2 h hm

theorem lineFree_of_subset {s t : List Char} (hsub : ∀ a ∈ t, a ∈ s)
    (h : lineFree s = true) : lineFree t = true := by
  rw [lineFree, List.all_eq_true] at h ⊢
  exact fun a ha => h a (hsub a ha)

theorem ocFree_cons_iff (c : Char) (cs : List Char) :
    ocFree (c :: cs) = true ↔ ((c = '(' → ')' ∉ cs) ∧ ocFree cs = true) := by
  show ((!(c = '(') || !(cs.any (fun d => d = ')'))) && ocFree cs) = true ↔ _
  rw [Bool.and_eq_true, Bool.or_eq_true, Bool.not_eq_true', Bool.not_eq_true']
  constructor
  · rintro ⟨h₁ | h₁, h₂⟩
    · refine ⟨?_, h₂⟩
      intro hc
      rw [decide_eq_false_iff_not] at h₁
      exact absurd hc h₁
    · refine ⟨?_, h₂⟩
      intro _ hm
      rw [List.any_eq_false] at h₁
      have := h₁ ')' hm
      simp at this
  · rintro ⟨h₁, h₂⟩
    refine ⟨?_, h₂⟩
    by_cases hc : c = '('
    · right
      rw [List.any_eq_false]
      intro d hd
      intro hdec
      rw [decide_eq_true_eq] at hdec
      exact h₁ hc (hdec ▸ hd)
    · left
      rw [decide_eq_false_iff_not]
      exact hc

theorem ocFree_append_of_no_lparen :
    ∀ (u v : List Char), (∀ c ∈ u, c ≠ '(') → ocFree v = true → ocFree (u ++ v) = true := by
  intro u
  induction u with
  | nil => intro v _ hv; simpa using hv
  | cons c cs ih =>
    intro v hu hv
    rw [List.cons_append, ocFree_cons_iff]
    constructor
    · intro hc
      exact absurd hc (hu c (List.mem_cons_self c cs))
    · exact ih v (fun d hd => hu d (List.mem_cons_of_mem c hd)) hv

theorem stripAux_subset :
    ∀ (fuel : Nat) (ws l : List Char), l.length ≤ fuel →
      ∀ a ∈ stripAux fuel ws l, a ∈ ws ∨ a ∈ l := by
  intro fuel
  induction fuel with
  | zero =>
    intro ws l hlen a ha
    have : l = [] := List.length_eq_zero.mp (Nat.le_zero.mp hlen)
    subst this
    exact Or.inl (by simpa [stripAux] using ha)
  | succ f ih =>
    intro ws l hlen a ha
    cases l with
    | nil => exact Or.inl (by simpa [stripAux] using ha)
    | cons c cs =>
      simp only [List.length_cons] at hlen
      simp only [stripAux] at ha
      by_cases hw : isWs c
      · rw [if_pos hw] at ha
        rcases ih (ws ++ [c]) cs (by omega) a ha with h | h
        · rcases List.mem_append.mp h with h | h
          · exact Or.inl h
          · exact Or.inr (by rw [List.mem_singleton.mp h]; exact List.mem_cons_self c cs)
        · exact Or.inr (List.mem_cons_of_mem c h)
      · rw [if_neg hw] at ha
        by_cases hp : c = '('
        · rw [if_pos hp] at ha
          cases hfc : findClose cs with
          | some rest =>
            rw [hfc] at ha
            have hlt := findClose_length_lt hfc
            have hdw := length_dropWhileWs_le rest
            rcases ih [] (rest.dropWhile isWs) (by omega) a ha with h | h
            · simp at h
            · have h₂ : a ∈ rest := (List.dropWhile_sublist isWs).subset h
              exact Or.inr (List.mem_cons_of_mem c (findClose_subset hfc a h₂))
          | none =>
            rw [hfc] at ha
            rcases List.mem_append.mp ha with h | h
            · exact Or.inl h
            · rcases List.mem_cons.mp h with h | h
              · exact Or.inr (by rw [h, hp]; exact List.mem_cons_self '(' cs)
              · rcases ih [] cs (by omega) a h with h₂ | h₂
                · simp at h₂
                · exact Or.inr (List.mem_cons_of_mem c h₂)
        · rw [if_neg hp] at ha
          rcases List.mem_append.mp ha with h | h
          · exact Or.inl h
          · rcases List.mem_cons.mp h with h | h
            · exact Or.inr (by rw [h]; exact List.mem_cons_self c cs)
            · rcases ih [] cs (by omega) a h with h₂ | h₂
              · simp at h₂
              · exact Or.inr (List.mem_cons_of_mem c h₂)

theorem stripAux_id :
    ∀ (fuel : Nat) (ws l : List Char), l.length ≤ fuel → ocFree l = true →
      stripAux fuel ws l = ws ++ l := by
  intro fuel
  induction fuel with
  | zero =>
    intro ws l hlen _
    have : l = [] := List.length_eq_zero.mp (Nat.le_zero.mp hlen)
    subst this
    simp [stripAux]
  | succ f ih =>
    intro ws l hlen hoc
    cases l with
    | nil => simp [stripAux]
    | cons c cs =>
      simp only [List.length_cons] at hlen
      rw [ocFree_cons_iff] at hoc
      simp only [stripAux]
      by_cases hw : isWs c
      · rw [if_pos hw, ih (ws ++ [c]) cs (by omega) hoc.2]
        simp
      · rw [if_neg hw]
        by_cases hp : c = '('
        · rw [if_pos hp]
          have hnone : findClose cs = none :=
            findClose_none_of_no_rparen (hoc.1 hp)
          rw [hnone, ih [] cs (by omega) hoc.2]
          simp
        · rw [if_neg hp, ih [] cs (by omega) hoc.2]
          simp

theorem stripAux_ocFree :
    ∀ (fuel : Nat) (ws l : List Char), l.length ≤ fuel → lineFree l = true →
      (∀ c ∈ ws, isWs c = true) → ocFree (stripAux fuel ws l) = true := by
  intro fuel
  induction fuel with
  | zero =>
    intro ws l hlen _ hws
    have : l = [] := List.length_eq_zero.mp (Nat.le_zero.mp hlen)
    subst this
    show ocFree ws = true
    have h₂ := ocFree_append_of_no_lparen ws []
      (fun c hc => isWs_ne_lparen (hws c hc)) rfl
    simpa using h₂
  | succ f ih =>
    intro ws l hlen hlf hws
    cases l with
    | nil =>
      show ocFree ws = true
      have := ocFree_append_of_no_lparen ws []
        (fun c hc => isWs_ne_lparen (hws c hc)) rfl
      simpa using this
    | cons c cs =>
      simp only [List.length_cons] at hlen
      rw [lineFree, List.all_cons, Bool.and_eq_true] at hlf
      have hlfcs : lineFree cs = true := hlf.2
      simp only [stripAux]
      by_cases hw : isWs c
      · rw [if_pos hw]
        apply ih (ws ++ [c]) cs (by omega) hlfcs
        intro d hd
        rcases List.mem_append.mp hd with h | h
        · exact hws d h
        · rw [List.mem_singleton.mp h]
          exact hw
      · rw [if_neg hw]
        by_cases hp : c = '('
        · rw [if_pos hp]
          cases hfc : findClose cs with
          | some rest =>
            apply ih [] (rest.dropWhile isWs) ?_ ?_ (by simp)
            · have hlt := findClose_length_lt hfc
              have hdw := length_dropWhileWs_le rest
              omega
            · apply lineFree_of_subset
                (fun a ha => findClose_subset hfc a ((List.dropWhile_sublist isWs).subset ha))
              exact hlfcs
          | none =>
            have hnor : ')' ∉ cs := no_rparen_of_findClose_none hlfcs hfc
            apply ocFree_append_of_no_lparen ws _
              (fun d hd => isWs_ne_lparen (hws d hd))
            rw [ocFree_cons_iff]
            constructor
            · intro _ hm
              rcases stripAux_subset f [] cs (by omega) ')' hm with h | h
              · simp at h
              · exact hnor h
            · exact ih [] cs (by omega) hlfcs (by simp)
        · rw [if_neg hp]
          apply ocFree_append_of_no_lparen ws _
            (fun d hd => isWs_ne_lparen (hws d hd))
          rw [ocFree_cons_iff]
          constructor
          · intro hc
            exact absurd hc hp
          · exact ih [] cs (by omega) hlfcs (by simp)

/-! ### `trim`, collapse and lower-casing facts -/

theorem ocFree_sublist : ∀ {t s : List Char}, List.Sublist t s → ocFree s = true → ocFree t = true := by
  intro t s hsub
  induction hsub with
  | slnil => exact fun h => h
  | cons a hsub ih =>
    intro h
    rw [ocFree_cons_iff] at h
    exact ih h.2
  | cons₂ a hsub ih =>
    intro h
    rw [ocFree_cons_iff] at h ⊢
    refine ⟨fun ha hm => h.1 ha (hsub.subset hm), ih h.2⟩

theorem dropTrailingWs_sublist : ∀ l : List Char, List.Sublist (dropTrailingWs l) l := by
  intro l
  induction l with
  | nil => exact List.Sublist.refl []
  | cons c cs ih =>
    show List.Sublist
      (match dropTrailingWs cs with
       | [] => if isWs c then [] else [c]
       | r => c :: r) (c :: cs)
    cases h : dropTrailingWs cs with
    | nil =>
      by_cases hw : isWs c
      · rw [if_pos hw]
        exact List.nil_sublist _
      · rw [if_neg hw]
        exact (List.nil_sublist cs).cons₂ c
    | cons r rs =>
      exact (h ▸ ih).cons₂ c

theorem jsTrim_sublist (l : List Char) : List.Sublist (jsTrim l) l :=
  (dropTrailingWs_sublist _).trans (List.dropWhile_sublist _)

theorem mem_collapseAux : ∀ (s : List Char) (b : Bool) (a : Char),
    a ∈ collapseAux b s → a = ' ' ∨ a ∈ s := by
  intro s
  induction s with
  | nil => intro b a h; simp [collapseAux] at h
  | cons c cs ih =>
    intro b a h
    unfold collapseAux at h
    by_cases hw : isWs c
    · rw [if_pos hw] at h
      by_cases hb : b
      · rw [if_pos hb] at h
        rcases ih true a h with h₂ | h₂
        · exact Or.inl h₂
        · exact Or.inr (List.mem_cons_of_mem c h₂)
      · rw [if_neg hb] at h
        rcases List.mem_cons.mp h with h₂ | h₂
        · exact Or.inl h₂
        · rcases ih true a h₂ with h₃ | h₃
          · exact Or.inl h₃
          · exact Or.inr (List.mem_cons_of_mem c h₃)
    · rw [if_neg hw] at h
      rcases List.mem_cons.mp h with h₂ | h₂
      · exact Or.inr (by rw [h₂]; exact List.mem_cons_self c cs)
      · rcases ih false a h₂ with h₃ | h₃
        · exact Or.inl h₃
        · exact Or.inr (List.mem_cons_of_mem c h₃)

theorem ocFree_collapseAux : ∀ (s : List Char) (b : Bool),
    ocFree s = true → ocFree (collapseAux b s) = true := by
  intro s
  induction s with
  | nil => intro b _; rfl
  | cons c cs ih =>
    intro b h
    rw [ocFree_cons_iff] at h
    unfold collapseAux
    by_cases hw : isWs c
    · rw [if_pos hw]
      by_cases hb : b
      · rw [if_pos hb]
        exact ih true h.2
      · rw [if_neg hb, ocFree_cons_iff]
        exact ⟨fun hsp => absurd hsp (by decide), ih true h.2⟩
    · rw [if_neg hw, ocFree_cons_iff]
      constructor
      · intro hc hm
        rcases mem_collapseAux cs false ')' hm with h₂ | h₂
        · cases h₂
        · exact h.1 hc h₂
      · exact ih false h.2

theorem ocFree_map_lower : ∀ s : List Char,
    ocFree s = true → ocFree (s.map lowerChar) = true := by
  intro s
  induction s with
  | nil => intro _; rfl
  | cons c cs ih =>
    intro h
    rw [ocFree_cons_iff] at h
    rw [List.map_cons, ocFree_cons_iff]
    constructor
    · intro hc hm
      rcases List.mem_map.mp hm with ⟨d, hd, hdr⟩
      have hdc := (lowerChar_rparen_iff d).mp hdr
      exact h.1 ((lowerChar_lparen_iff c).mp hc) (hdc ▸ hd)
    · exact ih h.2

theorem head_dropWhileWs : ∀ (l : List Char) (c : Char),
    (l.dropWhile isWs).head? = some c → isWs c = false := by
  intro l
  induction l with
  | nil => intro c h; simp at h
  | cons a as ih =>
    intro c h
    by_cases hw : isWs a
    · rw [List.dropWhile_cons, if_pos hw] at h
      exact ih c h
    · rw [List.dropWhile_cons, if_neg hw] at h
      rw [List.head?_cons, Option.some.injEq] at h
      rw [← h]
      exact Bool.eq_false_iff.mpr hw

theorem head_dropTrailingWs : ∀ (l : List Char) (c : Char),
    (dropTrailingWs l).head? = some c → l.head? = some c := by
  intro l
  induction l with
  | nil => intro c h; simp [dropTrailingWs] at h
  | cons a as _ =>
    intro c h
    show (a :: as).head? = some c
    revert h
    show (match dropTrailingWs as with
          | [] => if isWs a then [] else [a]
          | r => a :: r).head? = some c → _
    cases hd : dropTrailingWs as with
    | nil =>
      by_cases hw : isWs a
      · rw [if_pos hw]
        intro h
        simp at h
      · rw [if_neg hw]
        intro h
        rw [List.head?_cons, Option.some.injEq] at h
        rw [List.head?_cons, h]
    | cons r rs =>
      intro h
      rw [List.head?_cons, Option.some.injEq] at h
      rw [List.head?_cons, h]

theorem last_dropTrailingWs : ∀ (l : List Char) (c : Char),
    (dropTrailingWs l).getLast? = some c → isWs c = false := by
  intro l
  induction l with
  | nil => intro c h; simp [dropTrailingWs] at h
  | cons a as ih =>
    intro c h
    revert h
    show (match dropTrailingWs as with
          | [] => if isWs a then [] else [a]
          | r => a :: r).getLast? = some c → _
    cases hd : dropTrailingWs as with
    | nil =>
      by_cases hw : isWs a
      · rw [if_pos hw]
        intro h
        simp at h
      · rw [if_neg hw]
        intro h
        have hac : a = c := by simpa using h
        rw [← hac]
        exact Bool.eq_false_iff.mpr hw
    | cons r rs =>
      intro h
      rw [List.getLast?_cons_cons] at h
      exact ih c (hd ▸ h)

theorem getLast?_cons_of_ne_nil {x : Char} {L : List Char} (h : L ≠ []) :
    (x :: L).getLast? = L.getLast? := by
  cases L with
  | nil => exact absurd rfl h
  | cons y ys => exact List.getLast?_cons_cons

theorem ne_nil_of_getLast?_some {L : List Char} {c : Char} (h : L.getLast? = some c) :
    L ≠ [] := by
  intro hnil
  rw [hnil] at h
  simp at h

theorem collapseAux_getLast :
    ∀ (s : List Char) (b : Bool) (c : Char),
      s.getLast? = some c → isWs c = false → (collapseAux b s).getLast? = some c := by
  intro s
  induction s with
  | nil => intro b c h _; simp at h
  | cons a as ih =>
    intro b c h hc
    cases as with
    | nil =>
      have hac : a = c := by simpa using h
      subst hac
      unfold collapseAux
      rw [if_neg (by rw [hc]; simp)]
      rfl
    | cons d t =>
      rw [List.getLast?_cons_cons] at h
      unfold collapseAux
      by_cases hw : isWs a
      · rw [if_pos hw]
        by_cases hb : b
        · rw [if_pos hb]
          exact ih true c h hc
        · rw [if_neg hb]
          have hT := ih true c h hc
          rw [getLast?_cons_of_ne_nil (ne_nil_of_getLast?_some hT)]
          exact hT
      · rw [if_neg hw]
        have hT := ih false c h hc
        rw [getLast?_cons_of_ne_nil (ne_nil_of_getLast?_some hT)]
        exact hT

theorem collapseAux_head :
    ∀ (s : List Char) (c : Char),
      s.head? = some c → isWs c = false → (collapseAux false s).head? = some c := by
  intro s c h hc
  cases s with
  | nil => simp at h
  | cons a as =>
    rw [List.head?_cons, Option.some.injEq] at h
    subst h
    unfold collapseAux
    rw [if_neg (by rw [hc]; simp)]
    rfl

theorem dropWhileWs_eq_self (l : List Char)
    (h : ∀ c, l.head? = some c → isWs c = false) : l.dropWhile isWs = l := by
  cases l with
  | nil => rfl
  | cons a as =>
    rw [List.dropWhile_cons, if_neg (by rw [h a rfl]; simp)]

theorem dropTrailingWs_eq_self :
    ∀ l : List Char, (∀ c, l.getLast? = some c → isWs c = false) → dropTrailingWs l = l := by
  intro l
  induction l with
  | nil => intro _; rfl
  | cons a as ih =>
    intro h
    show (match dropTrailingWs as with
          | [] => if isWs a then [] else [a]
          | r => a :: r) = a :: as
    cases as with
    | nil =>
      rw [show dropTrailingWs [] = [] from rfl]
      rw [if_neg (by rw [h a rfl]; simp)]
    | cons d t =>
      have has : dropTrailingWs (d :: t) = d :: t := by
        apply ih
        intro c hcl
        exact h c (by rw [List.getLast?_cons_cons]; exact hcl)
      rw [has]

theorem jsTrim_eq_self (l : List Char)
    (hh : ∀ c, l.head? = some c → isWs c = false)
    (hl : ∀ c, l.getLast? = some c → isWs c = false) : jsTrim l = l := by
  unfold jsTrim
  rw [dropWhileWs_eq_self l hh]
  exact dropTrailingWs_eq_self l hl

theorem collapseAux_cons_ws (b : Bool) (c : Char) (cs : List Char) (h : isWs c = true) :
    collapseAux b (c :: cs)
      = if b then collapseAux true cs else ' ' :: collapseAux true cs := by
  simp only [collapseAux]
  rw [if_pos h]

theorem collapseAux_cons_not_ws (b : Bool) (c : Char) (cs : List Char) (h : isWs c = false) :
    collapseAux b (c :: cs) = c :: collapseAux false cs := by
  simp only [collapseAux]
  rw [if_neg (by rw [h]; simp)]

theorem collapseAux_idem :
    ∀ (s : List Char) (b : Bool), collapseAux b (collapseAux b s) = collapseAux b s := by
  intro s
  induction s with
  | nil => intro b; rfl
  | cons c cs ih =>
    intro b
    by_cases hw : isWs c
    · by_cases hb : b
      · subst hb
        rw [collapseAux_cons_ws true c cs hw, if_pos rfl]
        exact ih true
      · have hbf : b = false := by revert hb; cases b <;> simp
        subst hbf
        rw [collapseAux_cons_ws false c cs hw, if_neg (by simp)]
        rw [collapseAux_cons_ws false ' ' _ (by decide), if_neg (by simp)]
        rw [ih true]
    · have hwf : isWs c = false := Bool.eq_false_iff.mpr hw
      rw [collapseAux_cons_not_ws b c cs hwf]
      rw [collapseAux_cons_not_ws b c _ hwf]
      rw [ih false]

theorem collapse_map_lower_comm :
    ∀ (s : List Char) (b : Bool),
      collapseAux b (s.map lowerChar) = (collapseAux b s).map lowerChar := by
  intro s
  induction s with
  | nil => intro b; rfl
  | cons c cs ih =>
    intro b
    rw [List.map_cons]
    by_cases hw : isWs c
    · rw [collapseAux_cons_ws b (lowerChar c) _ (by rw [isWs_lowerChar]; exact hw)]
      rw [collapseAux_cons_ws b c cs hw]
      by_cases hb : b
      · rw [if_pos hb, if_pos hb]
        exact ih true
      · rw [if_neg hb, if_neg hb, List.map_cons, lowerChar_space]
        rw [ih true]
    · have hwf : isWs c = false := Bool.eq_false_iff.mpr hw
      rw [collapseAux_cons_not_ws b (lowerChar c) _ (by rw [isWs_lowerChar]; exact hwf)]
      rw [collapseAux_cons_not_ws b c cs hwf, List.map_cons]
      rw [ih false]

/-! ### Assembly: `normalizeName` is idempotent on line-terminator-free
strings -/

theorem normalizeList_ocFree (s : List Char) (h : lineFree s = true) :
    ocFree (normalizeList s) = true := by
  unfold normalizeList
  apply ocFree_map_lower
  apply ocFree_collapseAux
  apply ocFree_sublist (jsTrim_sublist (stripParens s))
  exact stripAux_ocFree s.length [] s le_rfl h (by simp)

theorem normalizeList_head (s : List Char) :
    ∀ c, (normalizeList s).head? = some c → isWs c = false := by
  intro c h
  unfold normalizeList at h
  rw [List.head?_map] at h
  cases hh : (collapseWs (jsTrim (stripParens s))).head? with
  | none => rw [hh] at h; simp at h
  | some c₀ =>
    rw [hh] at h
    simp at h
    subst h
    rw [isWs_lowerChar]
    unfold collapseWs at hh
    cases ht : (jsTrim (stripParens s)) with
    | nil => rw [ht] at hh; simp [collapseAux] at hh
    | cons a as =>
      have hhead : (jsTrim (stripParens s)).head? = some a := by rw [ht]; rfl
      have haws : isWs a = false := by
        unfold jsTrim at hhead
        exact head_dropWhileWs _ a (head_dropTrailingWs _ a hhead)
      have := collapseAux_head (jsTrim (stripParens s)) a hhead haws
      unfold collapseWs at this
      rw [ht] at this hh
      rw [this] at hh
      cases hh
      exact haws

theorem normalizeList_last (s : List Char) :
    ∀ c, (normalizeList s).getLast? = some c → isWs c = false := by
  intro c h
  unfold normalizeList at h
  rw [List.getLast?_map] at h
  cases hh : (collapseWs (jsTrim (stripParens s))).getLast? with
  | none => rw [hh] at h; simp at h
  | some c₀ =>
    rw [hh] at h
    simp at h
    subst h
    rw [isWs_lowerChar]
    cases ht : (jsTrim (stripParens s)).getLast? with
    | none =>
      have : jsTrim (stripParens s) = [] := by
        cases htt : jsTrim (stripParens s) with
        | nil => rfl
        | cons a as =>
          rw [htt] at ht
          exact absurd ht (by simp)
      rw [collapseWs, this] at hh
      simp [collapseAux] at hh
    | some a =>
      have haws : isWs a = false := by
        unfold jsTrim at ht
        exact last_dropTrailingWs _ a ht
      have := collapseAux_getLast (jsTrim (stripParens s)) false a ht haws
      unfold collapseWs at hh
      rw [this] at hh
      cases hh
      exact haws

/-- On a line-terminator-free input, one pass of `normalizeName` produces a
fixed point of all four stages. -/
theorem normalizeList_idem (s : List Char) (h : lineFree s = true) :
    normalizeList (normalizeList s) = normalizeList s := by
  have hoc : ocFree (normalizeList s) = true := normalizeList_ocFree s h
  have hstrip : stripParens (normalizeList s) = normalizeList s := by
    unfold stripParens
    rw [stripAux_id (normalizeList s).length [] (normalizeList s) le_rfl hoc]
    rfl
  have htrim : jsTrim (normalizeList s) = normalizeList s :=
    jsTrim_eq_self _ (normalizeList_head s) (normalizeList_last s)
  show normalizeList (normalizeList s) = normalizeList s
  unfold normalizeList
  show (collapseWs (jsTrim (stripParens (normalizeList s)))).map lowerChar = _
  rw [hstrip, htrim]
  unfold normalizeList collapseWs
  rw [collapse_map_lower_comm, collapseAux_idem]
  rw [List.map_map]
  exact List.map_congr_left (fun c _ => lowerChar_idem c)

/-- C8 (counterexample): the regex dot cannot cross a newline, so
`normalizeName "(a\nb)"` keeps the parenthetical and collapses the newline
to a space, producing `"(a b)"`; a second application strips the now
well-formed parenthetical and yields `""` — normalization is not
idempotent on all strings. -/
theorem c8_counterexample :
    normalizeName "(a\nb)" = "(a b)"
    ∧ normalizeName "(a b)" = ""
    ∧ normalizeName (normalizeName "(a\nb)") ≠ normalizeName "(a\nb)" := by
  decide

/-- C8 (amended): `normalizeName` (strip parentheticals, trim, collapse
whitespace, lower-case) is idempotent on every string containing no line
terminator (`\n`, `\r`, U+2028, U+2029); the counterexample shows the
restriction is necessary. -/
theorem c8_amended_normalize_idempotent_lineFree :
    ∀ s : String, lineFree s.data = true →
      normalizeName (normalizeName s) = normalizeName s := by
  intro s h
  show (⟨normalizeList (normalizeName s).data⟩ : String) = ⟨normalizeList s.data⟩
  show (⟨normalizeList (normalizeList s.data)⟩ : String) = ⟨normalizeList s.data⟩
  rw [normalizeList_idem s.data h]

/-- C8 (amended, witness): idempotence on a concrete parenthetical-bearing
name. -/
theorem c8_amended_witness :
    lineFree ("  Lady   Macbeth (Queen of Scotland) " : String).data = true
    ∧ normalizeName (normalizeName "  Lady   Macbeth (Queen of Scotland) ")
        = normalizeName "  Lady   Macbeth (Queen of Scotland) "
    ∧ normalizeName "  Lady   Macbeth (Queen of Scotland) " = "lady macbeth" :=
  ⟨by decide,
   c8_amended_normalize_idempotent_lineFree "  Lady   Macbeth (Queen of Scotland) " (by decide),
   by decide⟩

end GraphicStories
